import Mathlib

/-!
Verification development for the embedded entity store and
progress-reconciliation engine of the video-player application.

The live store is the `JsonDatabase` class (src/database/jsonDatabase.ts);
the request handlers live in src/main.ts, and the resume-selection
algorithm in src/components/ModernVideoPlayer.tsx.  We give a shallow
embedding: JS arrays become `List`, JS numbers holding ids / epoch-ms
timestamps become `Nat`, fractional quantities (durations, percentages)
become `Rat`, and ISO date strings are represented by their parsed
epoch-millisecond value.  Each mutating method becomes a pure function
from the store state to a new store state.
-/

namespace VP

/-- Course entity (src/database/schema.ts).  `createdAt`, `updatedAt` and
`lastAccessedAt` are ISO timestamps, embedded as epoch milliseconds. -/
structure Course where
  id : Nat
  name : String
  folderPath : String
  createdAt : Nat
  updatedAt : Nat
  lastAccessedAt : Option Nat := none
  lastWatchedVideoId : Option Nat := none
deriving DecidableEq, Repr

/-- Video entity (src/database/schema.ts). -/
structure Video where
  id : Nat
  courseId : Nat
  fileName : String
  filePath : String
  duration : Rat
  fileSize : Nat
  createdAt : Nat
  updatedAt : Nat
  width : Option Nat := none
  height : Option Nat := none
  codec : Option String := none
  bitrate : Option Nat := none
  frameRate : Option Rat := none
  subtitlePath : Option String := none
  hasSubtitles : Option Bool := none
  subtitleLanguage : Option String := none
deriving DecidableEq, Repr

/-- Watch-progress entity (src/database/schema.ts).  `manuallyCompleted` is an
optional field in the schema; `none` models a record in which the JS object
has no such key. -/
structure VideoProgress where
  id : Nat
  videoId : Nat
  currentTime : Rat
  duration : Rat
  progressPercentage : Rat
  lastWatchedAt : Nat
  completed : Bool
  manuallyCompleted : Option Bool := none
deriving DecidableEq, Repr

/-- Daily learning-time entity (src/database/schema.ts). -/
structure DailyLearningTime where
  id : Nat
  date : String
  totalTimeSpent : Rat
  sessionsCount : Nat
  createdAt : Nat
  updatedAt : Nat
deriving DecidableEq, Repr

/-- In-memory state of the `JsonDatabase` class (src/database/jsonDatabase.ts):
the four collections plus the shared id counter. -/
structure DB where
  courses : List Course := []
  videos : List Video := []
  videoProgress : List VideoProgress := []
  dailyLearningTime : List DailyLearningTime := []
  idCounter : Nat
deriving DecidableEq, Repr

/-- JsonDatabase.createCourse: allocates `++this.idCounter`, records
timestamps, pushes the course.  There is no duplicate-folder check here. -/
def createCourse (name folderPath : String) (now : Nat) (db : DB) : Course × DB :=
  let course : Course :=
    { id := db.idCounter + 1, name := name, folderPath := folderPath
      createdAt := now, updatedAt := now }
  (course, { db with courses := db.courses ++ [course], idCounter := db.idCounter + 1 })

/-- JsonDatabase.getCourseById. -/
def getCourseById (id : Nat) (db : DB) : Option Course :=
  db.courses.find? fun c => c.id == id

/-- JsonDatabase.getCourseByPath. -/
def getCourseByPath (folderPath : String) (db : DB) : Option Course :=
  db.courses.find? fun c => c.folderPath == folderPath

/-- JsonDatabase.courseExistsByPath. -/
def courseExistsByPath (folderPath : String) (db : DB) : Bool :=
  db.courses.any fun c => c.folderPath == folderPath

/-- Lower-cased characters of a string (`toLowerCase()`; two strings are
equal iff their character lists are). -/
def lowerStr (s : String) : List Char := s.toList.map Char.toLower

/-- JS `trim()`: strip whitespace from both ends. -/
def trimChars (s : String) : List Char :=
  ((s.toList.dropWhile Char.isWhitespace).reverse.dropWhile Char.isWhitespace).reverse

/-- JsonDatabase.courseExistsByName (compares lower-cased names). -/
def courseExistsByName (name : String) (db : DB) : Bool :=
  db.courses.any fun c => lowerStr c.name == lowerStr name

/-- JsonDatabase.deleteCourse, exactly as written in the source: the course
row and its videos are filtered out first, and THEN the progress filter keeps
a record iff no video of the ALREADY-FILTERED `this.videos` array carries its
`videoId`. -/
def deleteCourse (id : Nat) (db : DB) : DB :=
  let courses1 := db.courses.filter fun c => c.id != id
  let videos1 := db.videos.filter fun v => v.courseId != id
  let progress1 := db.videoProgress.filter fun vp =>
    !(videos1.any fun v => v.id == vp.videoId)
  { db with courses := courses1, videos := videos1, videoProgress := progress1 }

/-- JsonDatabase.createVideo: input carries every field except `id`,
`createdAt`, `updatedAt`. -/
structure VideoInput where
  courseId : Nat
  fileName : String
  filePath : String
  duration : Rat
  fileSize : Nat
deriving DecidableEq, Repr

/-- JsonDatabase.createVideo. -/
def createVideo (input : VideoInput) (now : Nat) (db : DB) : Video × DB :=
  let v : Video :=
    { id := db.idCounter + 1, courseId := input.courseId
      fileName := input.fileName, filePath := input.filePath
      duration := input.duration, fileSize := input.fileSize
      createdAt := now, updatedAt := now }
  (v, { db with videos := db.videos ++ [v], idCounter := db.idCounter + 1 })

/-- JsonDatabase.deleteVideo. -/
def deleteVideo (id : Nat) (db : DB) : DB :=
  { db with
    videos := db.videos.filter fun v => v.id != id
    videoProgress := db.videoProgress.filter fun vp => vp.videoId != id }

/-- JsonDatabase.getVideoProgress. -/
def getVideoProgress (videoId : Nat) (db : DB) : Option VideoProgress :=
  db.videoProgress.find? fun vp => vp.videoId == videoId

/-- JsonDatabase.updateVideoProgress: recomputes `completed` as
`progressPercentage >= 95`, builds a WHOLE fresh record (reusing only the id
of an existing record for the same video) and stores it; in particular the
fresh record has no `manuallyCompleted` key. -/
def updateVideoProgress (videoId : Nat) (currentTime duration progressPercentage : Rat)
    (now : Nat) (db : DB) : VideoProgress × DB :=
  let completed := decide (progressPercentage ≥ 95)
  match db.videoProgress.findIdx? (fun vp => vp.videoId == videoId) with
  | some i =>
    let oldId := ((db.videoProgress[i]?).map VideoProgress.id).getD 0
    let progress : VideoProgress :=
      { id := oldId, videoId := videoId, currentTime := currentTime
        duration := duration, progressPercentage := progressPercentage
        lastWatchedAt := now, completed := completed, manuallyCompleted := none }
    (progress, { db with videoProgress := db.videoProgress.set i progress })
  | none =>
    let progress : VideoProgress :=
      { id := db.idCounter + 1, videoId := videoId, currentTime := currentTime
        duration := duration, progressPercentage := progressPercentage
        lastWatchedAt := now, completed := completed, manuallyCompleted := none }
    (progress, { db with videoProgress := db.videoProgress ++ [progress],
                         idCounter := db.idCounter + 1 })

/-- JsonDatabase.resetVideoProgress. -/
def resetVideoProgress (videoId : Nat) (db : DB) : DB :=
  { db with videoProgress := db.videoProgress.filter fun vp => vp.videoId != videoId }

/-- JsonDatabase.resetCourseProgress. -/
def resetCourseProgress (courseId : Nat) (db : DB) : DB :=
  let videoIds := (db.videos.filter fun v => v.courseId == courseId).map Video.id
  { db with videoProgress :=
      db.videoProgress.filter fun vp => !(videoIds.contains vp.videoId) }

/-- JsonDatabase.addLearningTime: accumulate into today's row or allocate a
fresh one. -/
def addLearningTime (timeSpent : Rat) (today : String) (now : Nat) (db : DB) : DB :=
  match db.dailyLearningTime.findIdx? (fun e => e.date == today) with
  | some i =>
    match db.dailyLearningTime[i]? with
    | some e =>
      let e1 : DailyLearningTime :=
        { e with totalTimeSpent := e.totalTimeSpent + timeSpent
                 sessionsCount := e.sessionsCount + 1, updatedAt := now }
      { db with dailyLearningTime := db.dailyLearningTime.set i e1 }
    | none => db
  | none =>
    let e : DailyLearningTime :=
      { id := db.idCounter + 1, date := today, totalTimeSpent := timeSpent
        sessionsCount := 1, createdAt := now, updatedAt := now }
    { db with dailyLearningTime := db.dailyLearningTime ++ [e],
              idCounter := db.idCounter + 1 }

/-! ### Natural-order comparator (JsonDatabase.getVideosByCourseId)

The source lower-cases both file names, splits them on digit runs with
`split(/(\d+)/).filter(p => p.length > 0)`, walks the segment lists padded
with `""`, compares two digit runs numerically (`parseInt`) and any other
pair of segments as strings (`localeCompare`, embedded as code-point
comparison of the already lower-cased text), and finally breaks full ties by
`createdAt`.  JS `sort` with a consistent comparator is embedded as a stable
insertion sort over the relation `cmpVideo a b ≠ gt`. -/

/-- The JS regex class `\d`: code points 48-57. -/
def digitB (c : Char) : Bool := decide (48 ≤ c.toNat) && decide (c.toNat ≤ 57)

/-- The filtered capture-group split `s.split(/(\d+)/).filter(p => p.length >
0)`: maximal runs of characters of the same `\d`-class. -/
def splitSegs : List Char → List (List Char)
  | [] => []
  | c :: cs =>
    match splitSegs cs with
    | [] => [[c]]
    | [] :: rest => [c] :: [] :: rest
    | (d :: s) :: rest =>
      if digitB c = digitB d then (c :: d :: s) :: rest
      else [c] :: (d :: s) :: rest

/-- The test `/^\d+$/.test(part)`. -/
def isDigitRun (s : List Char) : Bool := !s.isEmpty && s.all digitB

/-- `parseInt` on a digit run (exact; JS loses precision only beyond 2^53). -/
def digitVal (s : List Char) : Nat := s.foldl (fun a c => a * 10 + (c.toNat - 48)) 0

/-- Generic lexicographic comparator on lists from an element comparator. -/
def listCmp {α : Type} (f : α → α → Ordering) : List α → List α → Ordering
  | [], [] => .eq
  | [], _ :: _ => .lt
  | _ :: _, [] => .gt
  | a :: as, b :: bs =>
    match f a b with
    | .eq => listCmp f as bs
    | o => o

/-- Code-point comparison of single characters. -/
def charCmp (a b : Char) : Ordering := compare a.toNat b.toNat

/-- String comparison, code point by code point (the embedding of
`localeCompare` on the lower-cased names). -/
def strCmp : List Char → List Char → Ordering := listCmp charCmp

/-- One segment-pair comparison from the loop body: numeric when both parts
are digit runs, string comparison otherwise. -/
def cmpSeg (a b : List Char) : Ordering :=
  if isDigitRun a && isDigitRun b then compare (digitVal a) (digitVal b)
  else strCmp a b

/-- Tail of the padding loop once the left list is exhausted: every remaining
left part is `""`. -/
def cmpNilSegs : List (List Char) → Ordering
  | [] => .eq
  | b :: bs =>
    match cmpSeg [] b with
    | .eq => cmpNilSegs bs
    | o => o

/-- Tail of the padding loop once the right list is exhausted. -/
def cmpSegsNil : List (List Char) → Ordering
  | [] => .eq
  | a :: as =>
    match cmpSeg a [] with
    | .eq => cmpSegsNil as
    | o => o

/-- The `for (let i = 0; i < maxLength; i++)` loop with `""` padding: compare
segment lists position by position, first non-tie wins; when one side runs
out, the loop keeps comparing against `""`. -/
def cmpSegs : List (List Char) → List (List Char) → Ordering
  | [], bs => cmpNilSegs bs
  | a :: as, [] =>
    match cmpSeg a [] with
    | .eq => cmpSegsNil as
    | o => o
  | a :: as, b :: bs =>
    match cmpSeg a b with
    | .eq => cmpSegs as bs
    | o => o

/-- `fileName.toLowerCase()`, character by character. -/
def lowerName (v : Video) : List Char := v.fileName.toList.map Char.toLower

/-- The whole comparator of getVideosByCourseId: natural segment comparison
of the lower-cased file names, then the `createdAt` tie-break. -/
def cmpVideo (a b : Video) : Ordering :=
  match cmpSegs (splitSegs (lowerName a)) (splitSegs (lowerName b)) with
  | .eq => compare a.createdAt b.createdAt
  | o => o

/-- The sort relation induced by the comparator (`cmpVideo a b <= 0`). -/
def videoLE (a b : Video) : Prop := cmpVideo a b ≠ Ordering.gt

instance : DecidableRel videoLE := fun a b => by
  unfold videoLE
  infer_instance

/-- JsonDatabase.getVideosByCourseId: the course's videos in table order,
sorted stably by the natural comparator. -/
def getVideosByCourseId (courseId : Nat) (db : DB) : List Video :=
  List.insertionSort videoLE (db.videos.filter fun v => v.courseId == courseId)

/-! ### Comparator sort keys (proof machinery)

Every segment produced by `splitSegs` is nonempty and homogeneous (all
digits or digit-free).  On such segments the comparator agrees with a
lexicographic comparison of sort keys: a digit run becomes the single token
`(1, value)` and a literal becomes its characters as tokens `(0, cp)` for
code points below the digit block and `(2, cp)` above it.  This turns the
comparator into a linear preorder, giving totality and transitivity. -/

/-- Token key of one literal character (never a digit in a literal segment). -/
def charKey (c : Char) : Nat × Nat :=
  if c.toNat < 48 then (0, c.toNat) else (2, c.toNat)

/-- Sort key of one segment. -/
def segKey (s : List Char) : List (Nat × Nat) :=
  if isDigitRun s then [(1, digitVal s)] else s.map charKey

/-- Lexicographic comparator on token pairs. -/
def pairCmp (a b : Nat × Nat) : Ordering :=
  match compare a.1 b.1 with
  | .eq => compare a.2 b.2
  | o => o

/-- Comparator on segment keys. -/
def keyCmp : List (Nat × Nat) → List (Nat × Nat) → Ordering := listCmp pairCmp

/-- Comparator on whole name keys. -/
def keysCmp : List (List (Nat × Nat)) → List (List (Nat × Nat)) → Ordering :=
  listCmp keyCmp

/-- Sort key of a whole video: lower-case the file name, split it, key each
segment. -/
def nameKey (v : Video) : List (List (Nat × Nat)) :=
  (splitSegs (lowerName v)).map segKey

/-- Combine a primary and a tie-break comparator. -/
def combineCmp {α : Type} (f g : α → α → Ordering) (a b : α) : Ordering :=
  match f a b with
  | .eq => g a b
  | o => o

/-- A segment is nonempty and homogeneous in its `\d`-class. -/
def SegWF : List Char → Prop
  | [] => False
  | c :: rest => ∀ d ∈ rest, digitB d = digitB c

/-- Laws making an `Ordering`-valued comparator a decidable linear preorder:
antisymmetry of the sign, transitivity of strict comparison, and
substitutivity of ties. -/
structure CmpLaws {α : Type} (f : α → α → Ordering) : Prop where
  symm : ∀ a b, f b a = (f a b).swap
  lt_trans : ∀ {a b c}, f a b = Ordering.lt → f b c = Ordering.lt → f a c = Ordering.lt
  eq_left : ∀ {a b c}, f a b = Ordering.eq → f a c = f b c

/-! ### Persistence scheduler (JsonDatabase.saveData / close)

`mem` is the current in-memory snapshot (abstracted over an arbitrary type),
`timerSet` models `saveThrottleTimer !== null`, `pending` models
`pendingSave`, and `writes` is the log of completed stable-storage writes
(the last element is the current disk content). -/
structure Sched (α : Type) where
  mem : α
  timerSet : Bool
  pending : Bool
  writes : List α
deriving DecidableEq, Repr

/-- JsonDatabase.saveData: if a throttle timer is live, just set the pending
flag; otherwise schedule the timer. -/
def saveData {α : Type} (s : Sched α) : Sched α :=
  if s.timerSet then { s with pending := true } else { s with timerSet := true }

/-- A persistence-triggering mutation: replace the in-memory snapshot and
request a save, exactly as every mutating JsonDatabase method does. -/
def mutate {α : Type} (d : α) (s : Sched α) : Sched α :=
  saveData { s with mem := d }

/-- The body of the `setTimeout` callback in JsonDatabase.saveData: write the
current snapshot, clear the timer, and if the pending flag was set, clear it
and call saveData again (which schedules the next timer).  When no timer is
live (e.g. after `close` cleared it) the callback never runs. -/
def fireTimer {α : Type} (s : Sched α) : Sched α :=
  if s.timerSet then
    let s1 : Sched α := { s with writes := s.writes ++ [s.mem], timerSet := false }
    if s1.pending then saveData { s1 with pending := false } else s1
  else s

/-- JsonDatabase.close: clear the throttle timer, then write synchronously
ONLY when the pending flag is set. -/
def closeDb {α : Type} (s : Sched α) : Sched α :=
  let s1 : Sched α := { s with timerSet := false }
  if s1.pending then { s1 with writes := s1.writes ++ [s1.mem] } else s1

/-! ### Persisted snapshot, load-time recovery, and whole runs
(JsonDatabase.loadData / saveData body / process restart) -/

/-- The persisted document: the four top-level arrays serialized by saveData. -/
structure Persisted where
  courses : List Course := []
  videos : List Video := []
  videoProgress : List VideoProgress := []
  dailyLearningTime : List DailyLearningTime := []
deriving DecidableEq, Repr

/-- All ids found in a persisted document, in the order loadData collects
them. -/
def allPersistedIds (p : Persisted) : List Nat :=
  p.courses.map Course.id ++ p.videos.map Video.id
    ++ p.videoProgress.map VideoProgress.id
    ++ p.dailyLearningTime.map DailyLearningTime.id

/-- All ids of the live in-memory collections. -/
def allIds (db : DB) : List Nat :=
  db.courses.map Course.id ++ db.videos.map Video.id
    ++ db.videoProgress.map VideoProgress.id
    ++ db.dailyLearningTime.map DailyLearningTime.id

/-- The snapshot a flush writes to stable storage. -/
def snapshot (db : DB) : Persisted :=
  { courses := db.courses, videos := db.videos
    videoProgress := db.videoProgress, dailyLearningTime := db.dailyLearningTime }

/-- JsonDatabase.loadData: install the parsed collections and set the counter
to `Math.max(...allIds)` when any id exists; on a missing/corrupt document
(`none`) start from empty collections.  `initCounter` is the constructor-time
`Date.now()` high-water value, which survives when no id is found. -/
def loadData (doc : Option Persisted) (initCounter : Nat) : DB :=
  match doc with
  | none => { idCounter := initCounter }
  | some p =>
    { courses := p.courses, videos := p.videos
      videoProgress := p.videoProgress, dailyLearningTime := p.dailyLearningTime
      idCounter :=
        if (allPersistedIds p).isEmpty then initCounter
        else (allPersistedIds p).foldr max 0 }

/-- One whole-run state: the live store plus the stable-storage document. -/
structure RunState where
  db : DB
  disk : Option Persisted
deriving DecidableEq, Repr

/-- The operations of a run that touch ids, plus flush and process restart. -/
inductive Op where
  | opCreateCourse (name folderPath : String) (now : Nat)
  | opCreateVideo (input : VideoInput) (now : Nat)
  | opDeleteCourse (id : Nat)
  | opDeleteVideo (id : Nat)
  | opHeartbeat (videoId : Nat) (currentTime duration pct : Rat) (now : Nat)
  | opResetVideo (videoId : Nat)
  | opResetCourse (courseId : Nat)
  | opAddLearningTime (timeSpent : Rat) (today : String) (now : Nat)
  | opFlush
  | opReload (initCounter : Nat)
deriving DecidableEq, Repr

/-- Whether an operation is a process restart (flush + reload happen there
only through `opFlush`/`opReload`). -/
def Op.isReload : Op → Bool
  | .opReload _ => true
  | _ => false

/-- Big-step semantics of one operation on a run state. -/
def step (op : Op) (rs : RunState) : RunState :=
  match op with
  | .opCreateCourse n f now => { rs with db := (createCourse n f now rs.db).2 }
  | .opCreateVideo i now => { rs with db := (createVideo i now rs.db).2 }
  | .opDeleteCourse id => { rs with db := deleteCourse id rs.db }
  | .opDeleteVideo id => { rs with db := deleteVideo id rs.db }
  | .opHeartbeat v c d p now => { rs with db := (updateVideoProgress v c d p now rs.db).2 }
  | .opResetVideo v => { rs with db := resetVideoProgress v rs.db }
  | .opResetCourse c => { rs with db := resetCourseProgress c rs.db }
  | .opAddLearningTime t today now => { rs with db := addLearningTime t today now rs.db }
  | .opFlush => { rs with disk := some (snapshot rs.db) }
  | .opReload c0 => { db := loadData rs.disk c0, disk := rs.disk }

/-- Well-formedness of a run state for id bookkeeping: live ids are bounded by
the counter and duplicate-free, and the persisted document (if any) is
duplicate-free. -/
def IdInv (rs : RunState) : Prop :=
  (∀ i ∈ allIds rs.db, i ≤ rs.db.idCounter)
    ∧ (allIds rs.db).Nodup
    ∧ (match rs.disk with
       | none => True
       | some p => (allPersistedIds p).Nodup)

instance (rs : RunState) : Decidable (IdInv rs) := by
  unfold IdInv
  cases rs.disk <;> exact inferInstance

/-! ### Resume selection (ModernVideoPlayer.findLastWatchedVideo)

The component loads one progress record per course video into a Map keyed by
video id (`loadVideoProgress`), then selects the video to auto-open.  The
inputs are the course's videos in display order and the store's progress
table; `lastWatchedAt` is the parsed `new Date(...).getTime()` value, so 0
(the loop's initial `latestTimestamp`) behaves like a missing timestamp. -/

/-- The component's `videoProgress` Map as an association list: one entry per
course video that has a progress record. -/
def progressMap (videos : List Video) (prog : List VideoProgress) :
    List (Nat × VideoProgress) :=
  videos.filterMap fun v =>
    (prog.find? fun vp => vp.videoId == v.id).map fun p => (v.id, p)

/-- `videoProgress.get(videoId)` in the component. -/
def mapGet (videos : List Video) (prog : List VideoProgress) (videoId : Nat) :
    Option VideoProgress :=
  ((progressMap videos prog).find? fun e => e.1 == videoId).map Prod.snd

/-- The component's isVideoCompleted on stored progress (no currently-playing
override): the record's `completed` flag, or false without a record. -/
def isVideoCompletedC (videos : List Video) (prog : List VideoProgress)
    (videoId : Nat) : Bool :=
  match mapGet videos prog videoId with
  | some p => p.completed
  | none => false

/-- One step of the `forEach` loop looking for the most recent
`lastWatchedAt`. -/
def lastWatchedStep (videos : List Video) (prog : List VideoProgress)
    (st : Option Video × Nat) (v : Video) : Option Video × Nat :=
  match mapGet videos prog v.id with
  | some p => if p.lastWatchedAt > st.2 then (some v, p.lastWatchedAt) else st
  | none => st

/-- ModernVideoPlayer.findLastWatchedVideo: first video when the progress map
is empty; otherwise the video with the most recent positive lastWatchedAt;
when none qualifies, the first incomplete video (or the first video); when
the last-touched video is completed, the first incomplete video strictly
after its index, falling back to the last-touched video itself. -/
def findLastWatchedVideo (videos : List Video) (prog : List VideoProgress) :
    Option Video :=
  if (progressMap videos prog).length = 0 then videos.head?
  else
    match (videos.foldl (lastWatchedStep videos prog) (none, 0)).1 with
    | none =>
      match videos.find? (fun v => !isVideoCompletedC videos prog v.id) with
      | some v => some v
      | none => videos.head?
    | some lw =>
      if isVideoCompletedC videos prog lw.id then
        let idx := videos.findIdx fun w => w.id == lw.id
        match videos.enum.find? (fun p =>
            decide (idx < p.1) && !isVideoCompletedC videos prog p.2.id) with
        | some p => some p.2
        | none => some lw
      else some lw

/-! ### Combined read getCourseWithVideos (JsonDatabase) -/

/-- The enriched course object returned by getCourseWithVideos. -/
structure CourseWithVideos where
  course : Course
  videos : List Video
  totalVideos : Nat
  completedVideos : Nat
  totalProgress : Rat
deriving DecidableEq, Repr

/-- JS `Math.round(x * 100) / 100`: Math.round is floor(x + 1/2) on finite
non-negative inputs. -/
def round2 (q : Rat) : Rat := ((Int.floor (q * 100 + 1 / 2) : Int) : Rat) / 100

/-- JsonDatabase.getCourseWithVideos: aggregates over the progress records of
the course's videos only — the mean is over existing records, 0 without
any. -/
def getCourseWithVideos (courseId : Nat) (db : DB) : Option CourseWithVideos :=
  match getCourseById courseId db with
  | none => none
  | some course =>
    let videos := getVideosByCourseId courseId db
    let progressData := db.videoProgress.filter fun vp =>
      videos.any fun v => v.id == vp.videoId
    let completedVideos := (progressData.filter fun p => p.completed).length
    let totalProgress : Rat :=
      if progressData.length > 0 then
        (progressData.map VideoProgress.progressPercentage).sum / progressData.length
      else 0
    some ⟨course, videos, videos.length, completedVideos, round2 totalProgress⟩

/-! ### The create-course request handler (src/main.ts)

The handler validates name and folder path, then either augments the course
already owning the folder path (adding only descriptors whose filePath is
not yet recorded for that course, against a set computed BEFORE the loop)
or, after the duplicate-name and empty-folder checks, creates a fresh course
and one video per descriptor.  The folder crawl is an external collaborator;
its result is the `descs` input. -/

/-- One discovered file descriptor from the folder importer. -/
structure FileDesc where
  fileName : String
  filePath : String
  duration : Rat
  fileSize : Nat
deriving DecidableEq, Repr

/-- JsonDatabase.updateCourse restricted to the handler's use
`updateCourse(id, { updatedAt })`: Object.assign writes updatedAt, and the
method then overwrites updatedAt with the current time again. -/
def updateCourseUpdatedAt (id : Nat) (now : Nat) (db : DB) : DB :=
  { db with courses := db.courses.map fun c =>
      if c.id == id then { c with updatedAt := now } else c }

/-- Loop body of the handler's augment path: skip a descriptor whose
filePath is in the pre-computed set, create a video otherwise. -/
def augmentStep (cid now : Nat) (eps : List String) (acc : DB) (d : FileDesc) : DB :=
  if eps.contains d.filePath then acc
  else (createVideo ⟨cid, d.fileName, d.filePath, d.duration, d.fileSize⟩ now acc).2

/-- Loop body of the handler's create path: one video per descriptor. -/
def createStep (cid now : Nat) (acc : DB) (d : FileDesc) : DB :=
  (createVideo ⟨cid, d.fileName, d.filePath, d.duration, d.fileSize⟩ now acc).2

/-- The ipcMain create-course handler. -/
def createCourseHandler (name folderPath : String) (descs : List FileDesc)
    (now : Nat) (db : DB) : Except String DB :=
  if trimChars name = [] then .error "Course name is required"
  else if trimChars folderPath = [] then .error "Folder path is required"
  else
    match getCourseByPath folderPath db with
    | some existing =>
      let existingFilePaths := (getVideosByCourseId existing.id db).map Video.filePath
      let db1 := descs.foldl (augmentStep existing.id now existingFilePaths) db
      .ok (updateCourseUpdatedAt existing.id now db1)
    | none =>
      if courseExistsByName (String.mk (trimChars name)) db then
        .error "A course with this name already exists"
      else if descs.length = 0 then
        .error "No video files found in the selected folder"
      else
        let created := createCourse name folderPath now db
        .ok (descs.foldl (createStep created.1.id now) created.2)

/-- The store state after a handler call: the new state on success, the old
state when the handler threw. -/
def handlerState (r : Except String DB) (db : DB) : DB :=
  match r with
  | .ok d => d
  | .error _ => db

/-! ### Concrete example states used by individual claims -/

/-- Example store for the cascade-delete claim: two courses, one video each,
one progress record per video. -/
def cascadeDb : DB :=
  { courses := [{ id := 1, name := "A", folderPath := "/a", createdAt := 0, updatedAt := 0 },
                { id := 2, name := "B", folderPath := "/b", createdAt := 0, updatedAt := 0 }]
    videos := [{ id := 10, courseId := 1, fileName := "x.mp4", filePath := "/a/x.mp4",
                 duration := 100, fileSize := 1, createdAt := 0, updatedAt := 0 },
               { id := 20, courseId := 2, fileName := "y.mp4", filePath := "/b/y.mp4",
                 duration := 100, fileSize := 1, createdAt := 0, updatedAt := 0 }]
    videoProgress := [{ id := 30, videoId := 10, currentTime := 5, duration := 100,
                        progressPercentage := 5, lastWatchedAt := 1000, completed := false },
                      { id := 40, videoId := 20, currentTime := 5, duration := 100,
                        progressPercentage := 5, lastWatchedAt := 1000, completed := false }]
    idCounter := 100 }

/-- Example store for the sticky-completion claim: one progress record that is
completed with the manual flag set. -/
def stickyDb : DB :=
  { videoProgress := [{ id := 5, videoId := 1, currentTime := 50, duration := 100,
                        progressPercentage := 100, lastWatchedAt := 1000, completed := true,
                        manuallyCompleted := some true }]
    idCounter := 100 }

/-- C5 counterexample run, part 1: from a fresh store (constructor counter
1000) create courses A (id 1001) and B (id 1002). -/
def reuseMid : RunState :=
  step (.opCreateCourse "B" "/b" 0)
    (step (.opCreateCourse "A" "/a" 0) ⟨{ idCounter := 1000 }, none⟩)

/-- C5 counterexample run, part 2: delete course B, flush, restart (loadData
resumes the counter at the maximum persisted id, 1001). -/
def reuseAfterReload : RunState :=
  step (.opReload 2000) (step .opFlush (step (.opDeleteCourse 1002) reuseMid))

/-- Helper to build a plain video row for the concrete ordering examples. -/
def mkVid (id : Nat) (cid : Nat) (nm : String) (ca : Nat) : Video :=
  { id := id, courseId := cid, fileName := nm, filePath := nm
    duration := 1, fileSize := 1, createdAt := ca, updatedAt := ca }

/-- Example store for the ordering claim: course 1 holds the spec's five file
names in shuffled table order (and course 2 holds an unrelated video). -/
def sortDb : DB :=
  { videos := [mkVid 1 1 "Lesson 10.mp4" 5, mkVid 2 1 "Outro.mp4" 4,
               mkVid 3 2 "Aaa.mp4" 9, mkVid 4 1 "Lesson 2.mp4" 3,
               mkVid 5 1 "Intro.mp4" 2, mkVid 6 1 "Lesson 1.mp4" 1]
    idCounter := 100 }

/-- Helper to build a progress record for the resume-selection examples. -/
def mkProg (vid : Nat) (t : Nat) (c : Bool) : VideoProgress :=
  { id := vid + 100, videoId := vid, currentTime := 0, duration := 100,
    progressPercentage := 50, lastWatchedAt := t, completed := c }

/-- Course order [A, B, C] for the resume-selection witness. -/
def resumeVids : List Video :=
  [mkVid 1 1 "A.mp4" 0, mkVid 2 1 "B.mp4" 0, mkVid 3 1 "C.mp4" 0]

/-- Progress on A only: completed, most recent. -/
def resumeProg : List VideoProgress := [mkProg 1 100 true]

/-- Example store for the duplicate-folder claim: one course already owns
folder path "/a". -/
def dupDb : DB :=
  { courses := [{ id := 1, name := "A", folderPath := "/a", createdAt := 0, updatedAt := 0 }]
    idCounter := 10 }

/-- Store state after one create-course request. -/
def afterFirst (name p : String) (descs : List FileDesc) (t1 : Nat) (db : DB) : DB :=
  handlerState (createCourseHandler name p descs t1 db) db

/-- Store state after running the same create-course request twice. -/
def afterSecond (name p : String) (descs : List FileDesc) (t1 t2 : Nat) (db : DB) : DB :=
  handlerState (createCourseHandler name p descs t2 (afterFirst name p descs t1 db))
    (afterFirst name p descs t1 db)

/-- Example store for the aggregation claim: one course with ten videos, of
which exactly one (video 3) has a progress record, 100% and completed. -/
def aggDb : DB :=
  { courses := [{ id := 1, name := "Agg", folderPath := "/agg", createdAt := 0, updatedAt := 0 }]
    videos := [mkVid 1 1 "v.mp4" 1, mkVid 2 1 "v.mp4" 2, mkVid 3 1 "v.mp4" 3,
               mkVid 4 1 "v.mp4" 4, mkVid 5 1 "v.mp4" 5, mkVid 6 1 "v.mp4" 6,
               mkVid 7 1 "v.mp4" 7, mkVid 8 1 "v.mp4" 8, mkVid 9 1 "v.mp4" 9,
               mkVid 10 1 "v.mp4" 10]
    videoProgress := [{ id := 50, videoId := 3, currentTime := 10, duration := 10,
                        progressPercentage := 100, lastWatchedAt := 5, completed := true }]
    idCounter := 100 }

/-! ### Theorems -/

/-- Helper: running a list of mutations while the throttle timer is live only
swaps the in-memory snapshot and (if at least one mutation ran) raises the
pending flag; nothing reaches the write log. -/
theorem foldl_mutate_timerSet {α : Type} (ds : List α) (s : Sched α)
    (h : s.timerSet = true) :
    ds.foldl (fun t d => mutate d t) s =
      { mem := ds.getLastD s.mem, timerSet := true,
        pending := s.pending || !ds.isEmpty, writes := s.writes } := by
  induction ds generalizing s with
  | nil =>
    cases s with
    | mk mem timerSet pending writes =>
      simp only [List.foldl_nil, List.getLastD_nil, List.isEmpty_nil] at *
      simp [h]
  | cons d ds ih =>
    have hstep : mutate d s =
        { mem := d, timerSet := true, pending := true, writes := s.writes } := by
      simp [mutate, saveData, h]
    rw [List.foldl_cons, hstep, ih _ rfl, List.getLastD_cons]
    simp

/-- Helper: every member of a Nat list is bounded by its foldr-max. -/
theorem mem_le_foldr_max (l : List Nat) : ∀ i ∈ l, i ≤ l.foldr max 0 := by
  induction l with
  | nil => intro i h; cases h
  | cons a l ih =>
    intro i h
    rcases List.mem_cons.mp h with h1 | h1
    · subst h1; exact le_max_left _ _
    · exact le_trans (ih i h1) (le_max_right _ _)

/-- Helper: a `set` that does not change the value of the mapped function
leaves the mapped list unchanged. -/
theorem map_set_same {α β : Type} (f : α → β) :
    ∀ (l : List α) (i : Nat) (p : α), (∀ q, l[i]? = some q → f q = f p) →
      (l.set i p).map f = l.map f := by
  intro l
  induction l with
  | nil => intro i p _; rfl
  | cons a l ih =>
    intro i p h
    cases i with
    | zero =>
      simp only [List.set, List.map]
      rw [h a (by simp)]
    | succ n =>
      simp only [List.set, List.map]
      rw [ih n p (fun q hq => h q (by simpa using hq))]

/-- Helper: moving one element out of the middle of an append. -/
theorem perm_insert_middle {α : Type} (A B : List α) (x : α) :
    List.Perm (A ++ x :: B) (x :: (A ++ B)) := List.perm_middle

/-- Helper: consequences of adding exactly one freshly allocated id. -/
theorem insert_case (cnt : Nat) (old new : List Nat)
    (hb : ∀ i ∈ old, i ≤ cnt) (hn : old.Nodup)
    (hperm : List.Perm new ((cnt + 1) :: old)) :
    ((∀ i ∈ new, i ≤ cnt + 1) ∧ new.Nodup)
    ∧ (∀ i ∈ new, i ∉ old → cnt < i) := by
  refine ⟨⟨?_, ?_⟩, ?_⟩
  · intro i hi
    rcases List.mem_cons.mp (hperm.mem_iff.mp hi) with h1 | h1
    · omega
    · exact le_trans (hb i h1) (by omega)
  · refine hperm.nodup_iff.mpr (List.nodup_cons.mpr ⟨?_, hn⟩)
    intro hmem
    exact absurd (hb _ hmem) (by omega)
  · intro i hi hnot
    rcases List.mem_cons.mp (hperm.mem_iff.mp hi) with h1 | h1
    · omega
    · exact absurd h1 hnot

/-- Helper: consequences of an operation that only removes ids. -/
theorem sublist_case (cnt : Nat) (old new : List Nat)
    (hb : ∀ i ∈ old, i ≤ cnt) (hn : old.Nodup)
    (hsub : List.Sublist new old) :
    ((∀ i ∈ new, i ≤ cnt) ∧ new.Nodup)
    ∧ (∀ i ∈ new, i ∉ old → cnt < i) := by
  refine ⟨⟨fun i hi => hb i (hsub.subset hi), hn.sublist hsub⟩, ?_⟩
  intro i hi hnot
  exact absurd (hsub.subset hi) hnot

/-- C5 amended: every operation preserves id well-formedness (live ids are
bounded by the counter and duplicate-free, so no two coexisting entities ever
share an id); every operation other than a reload never decreases the id
counter; and any id added by a non-reload operation is strictly greater than
the counter before the operation, hence strictly greater than every live id
and than every id observed since the last reload.  After a reload the counter
resumes at the maximum persisted id, so an id of an entity deleted before the
preceding flush may be reused: see the counterexample below. -/
theorem step_ids_fresh_and_unique (op : Op) (rs : RunState) (h : IdInv rs) :
    IdInv (step op rs)
    ∧ (op.isReload = false → rs.db.idCounter ≤ (step op rs).db.idCounter)
    ∧ (op.isReload = false →
        ∀ i ∈ allIds (step op rs).db, i ∉ allIds rs.db → rs.db.idCounter < i) := by
  obtain ⟨hb, hn, hd⟩ := h
  cases op with
  | opCreateCourse n f now =>
    have hperm : List.Perm (allIds (createCourse n f now rs.db).2)
        ((rs.db.idCounter + 1) :: allIds rs.db) := by
      simpa [allIds, createCourse, List.append_assoc] using
        perm_insert_middle (rs.db.courses.map Course.id)
          (rs.db.videos.map Video.id ++ (rs.db.videoProgress.map VideoProgress.id
            ++ rs.db.dailyLearningTime.map DailyLearningTime.id)) (rs.db.idCounter + 1)
    obtain ⟨⟨b1, n1⟩, f1⟩ := insert_case rs.db.idCounter _ _ hb hn hperm
    exact ⟨⟨b1, n1, hd⟩, fun _ => by simp [step, createCourse], fun _ => f1⟩
  | opCreateVideo inp now =>
    have hperm : List.Perm (allIds (createVideo inp now rs.db).2)
        ((rs.db.idCounter + 1) :: allIds rs.db) := by
      simpa [allIds, createVideo, List.append_assoc] using
        perm_insert_middle (rs.db.courses.map Course.id ++ rs.db.videos.map Video.id)
          (rs.db.videoProgress.map VideoProgress.id
            ++ rs.db.dailyLearningTime.map DailyLearningTime.id) (rs.db.idCounter + 1)
    obtain ⟨⟨b1, n1⟩, f1⟩ := insert_case rs.db.idCounter _ _ hb hn hperm
    exact ⟨⟨b1, n1, hd⟩, fun _ => by simp [step, createVideo], fun _ => f1⟩
  | opDeleteCourse id =>
    have hsub : List.Sublist (allIds (deleteCourse id rs.db)) (allIds rs.db) := by
      exact ((((List.filter_sublist _).map _).append
        ((List.filter_sublist _).map _)).append
          ((List.filter_sublist _).map _)).append (List.Sublist.refl _)
    obtain ⟨⟨b1, n1⟩, f1⟩ := sublist_case rs.db.idCounter _ _ hb hn hsub
    exact ⟨⟨b1, n1, hd⟩, fun _ => le_refl _, fun _ => f1⟩
  | opDeleteVideo id =>
    have hsub : List.Sublist (allIds (deleteVideo id rs.db)) (allIds rs.db) := by
      exact (((List.Sublist.refl _).append
        ((List.filter_sublist _).map _)).append
          ((List.filter_sublist _).map _)).append (List.Sublist.refl _)
    obtain ⟨⟨b1, n1⟩, f1⟩ := sublist_case rs.db.idCounter _ _ hb hn hsub
    exact ⟨⟨b1, n1, hd⟩, fun _ => le_refl _, fun _ => f1⟩
  | opResetVideo v =>
    have hsub : List.Sublist (allIds (resetVideoProgress v rs.db)) (allIds rs.db) := by
      exact (((List.Sublist.refl _).append
        (List.Sublist.refl _)).append
          ((List.filter_sublist _).map _)).append (List.Sublist.refl _)
    obtain ⟨⟨b1, n1⟩, f1⟩ := sublist_case rs.db.idCounter _ _ hb hn hsub
    exact ⟨⟨b1, n1, hd⟩, fun _ => le_refl _, fun _ => f1⟩
  | opResetCourse c =>
    have hsub : List.Sublist (allIds (resetCourseProgress c rs.db)) (allIds rs.db) := by
      exact (((List.Sublist.refl _).append
        (List.Sublist.refl _)).append
          ((List.filter_sublist _).map _)).append (List.Sublist.refl _)
    obtain ⟨⟨b1, n1⟩, f1⟩ := sublist_case rs.db.idCounter _ _ hb hn hsub
    exact ⟨⟨b1, n1, hd⟩, fun _ => le_refl _, fun _ => f1⟩
  | opHeartbeat v c d p now =>
    cases hfind : rs.db.videoProgress.findIdx? (fun vp => vp.videoId == v) with
    | some i =>
      have hlt : i < rs.db.videoProgress.length :=
        (List.findIdx?_eq_some_iff_findIdx_eq.mp hfind).1
      have hget : rs.db.videoProgress[i]? = some rs.db.videoProgress[i] :=
        List.getElem?_eq_getElem hlt
      have heq : allIds (updateVideoProgress v c d p now rs.db).2 = allIds rs.db := by
        simp only [updateVideoProgress, hfind]
        simp only [allIds]
        rw [map_set_same]
        intro q hq
        rw [hget] at hq
        cases hq
        simp [hget]
      have hcnt : (updateVideoProgress v c d p now rs.db).2.idCounter
          = rs.db.idCounter := by
        simp [updateVideoProgress, hfind]
      refine ⟨⟨?_, ?_, hd⟩, fun _ => ?_, fun _ => ?_⟩
      · show ∀ j ∈ allIds (updateVideoProgress v c d p now rs.db).2,
          j ≤ (updateVideoProgress v c d p now rs.db).2.idCounter
        rw [heq, hcnt]; exact hb
      · show (allIds (updateVideoProgress v c d p now rs.db).2).Nodup
        rw [heq]; exact hn
      · show rs.db.idCounter ≤ (updateVideoProgress v c d p now rs.db).2.idCounter
        rw [hcnt]
      · show ∀ j ∈ allIds (updateVideoProgress v c d p now rs.db).2,
          j ∉ allIds rs.db → rs.db.idCounter < j
        rw [heq]
        intro j hj hnot
        exact absurd hj hnot
    | none =>
      have hperm : List.Perm (allIds (updateVideoProgress v c d p now rs.db).2)
          ((rs.db.idCounter + 1) :: allIds rs.db) := by
        simp only [updateVideoProgress, hfind]
        simpa [allIds, List.append_assoc] using
          perm_insert_middle
            (rs.db.courses.map Course.id ++ (rs.db.videos.map Video.id
              ++ rs.db.videoProgress.map VideoProgress.id))
            (rs.db.dailyLearningTime.map DailyLearningTime.id) (rs.db.idCounter + 1)
      have hcnt2 : (updateVideoProgress v c d p now rs.db).2.idCounter
          = rs.db.idCounter + 1 := by
        simp [updateVideoProgress, hfind]
      obtain ⟨⟨b1, n1⟩, f1⟩ := insert_case rs.db.idCounter _ _ hb hn hperm
      refine ⟨⟨?_, n1, hd⟩, fun _ => ?_, fun _ => f1⟩
      · show ∀ j ∈ allIds (updateVideoProgress v c d p now rs.db).2,
          j ≤ (updateVideoProgress v c d p now rs.db).2.idCounter
        rw [hcnt2]
        exact b1
      · show rs.db.idCounter ≤ (updateVideoProgress v c d p now rs.db).2.idCounter
        rw [hcnt2]
        omega
  | opAddLearningTime t today now =>
    cases hfind : rs.db.dailyLearningTime.findIdx? (fun e => e.date == today) with
    | some i =>
      have hlt : i < rs.db.dailyLearningTime.length :=
        (List.findIdx?_eq_some_iff_findIdx_eq.mp hfind).1
      have hget : rs.db.dailyLearningTime[i]? = some rs.db.dailyLearningTime[i] :=
        List.getElem?_eq_getElem hlt
      have heq : allIds (addLearningTime t today now rs.db) = allIds rs.db := by
        simp only [addLearningTime, hfind, hget]
        simp only [allIds]
        rw [map_set_same]
        intro q hq
        rw [hget] at hq
        cases hq
        rfl
      have hcnt : (addLearningTime t today now rs.db).idCounter = rs.db.idCounter := by
        simp [addLearningTime, hfind, hget]
      refine ⟨⟨?_, ?_, hd⟩, fun _ => ?_, fun _ => ?_⟩
      · show ∀ j ∈ allIds (addLearningTime t today now rs.db),
          j ≤ (addLearningTime t today now rs.db).idCounter
        rw [heq, hcnt]; exact hb
      · show (allIds (addLearningTime t today now rs.db)).Nodup
        rw [heq]; exact hn
      · show rs.db.idCounter ≤ (addLearningTime t today now rs.db).idCounter
        rw [hcnt]
      · show ∀ j ∈ allIds (addLearningTime t today now rs.db),
          j ∉ allIds rs.db → rs.db.idCounter < j
        rw [heq]
        intro j hj hnot
        exact absurd hj hnot
    | none =>
      have hperm : List.Perm (allIds (addLearningTime t today now rs.db))
          ((rs.db.idCounter + 1) :: allIds rs.db) := by
        simp only [addLearningTime, hfind]
        simpa [allIds, List.append_assoc] using
          perm_insert_middle (allIds rs.db) [] (rs.db.idCounter + 1)
      have hcnt2 : (addLearningTime t today now rs.db).idCounter
          = rs.db.idCounter + 1 := by
        simp [addLearningTime, hfind]
      obtain ⟨⟨b1, n1⟩, f1⟩ := insert_case rs.db.idCounter _ _ hb hn hperm
      refine ⟨⟨?_, n1, hd⟩, fun _ => ?_, fun _ => f1⟩
      · show ∀ j ∈ allIds (addLearningTime t today now rs.db),
          j ≤ (addLearningTime t today now rs.db).idCounter
        rw [hcnt2]
        exact b1
      · show rs.db.idCounter ≤ (addLearningTime t today now rs.db).idCounter
        rw [hcnt2]
        omega
  | opFlush =>
    refine ⟨⟨hb, hn, hn⟩, fun _ => le_refl _, fun _ => ?_⟩
    intro i hi hnot
    exact absurd hi hnot
  | opReload c0 =>
    refine ⟨?_, fun hfalse => by simp [Op.isReload] at hfalse,
      fun hfalse => by simp [Op.isReload] at hfalse⟩
    cases hdisk : rs.disk with
    | none =>
      refine ⟨?_, ?_, ?_⟩ <;> simp [step, loadData, allIds, hdisk]
    | some pd =>
      rw [hdisk] at hd
      have hids : allIds (step (Op.opReload c0) rs).db = allPersistedIds pd := by
        simp [step, loadData, hdisk, allIds, allPersistedIds]
      refine ⟨?_, ?_, ?_⟩
      · cases hE : (allPersistedIds pd).isEmpty with
        | true =>
          intro i hi
          rw [List.isEmpty_iff] at hE
          rw [hids, hE] at hi
          cases hi
        | false =>
          intro i hi
          rw [hids] at hi
          have hcnt : (step (Op.opReload c0) rs).db.idCounter
              = (allPersistedIds pd).foldr max 0 := by
            simp [step, loadData, hdisk, hE]
          rw [hcnt]
          exact mem_le_foldr_max _ i hi
      · rw [hids]
        exact hd
      · show (match (step (Op.opReload c0) rs).disk with
          | none => True
          | some p => (allPersistedIds p).Nodup)
        simp only [step, hdisk]
        exact hd

/-- C5 counterexample: id 1002 is observed in the run (course B), course B is
deleted before the flush + reload, and the next allocation after the reload
returns id 1002 AGAIN — refuting the claim that every newly allocated id is
strictly greater than every id previously observed in the run, including ids
of entities deleted before a reload. -/
theorem id_reused_after_delete_and_reload :
    (1002 ∈ allIds reuseMid.db)
    ∧ ((createCourse "C" "/c" 0 reuseAfterReload.db).1.id = 1002) := by decide

/-- C5 witness: the amended theorem applied at a concrete operation and
state. -/
theorem step_ids_fresh_and_unique_witness :
    IdInv reuseMid
    ∧ (IdInv (step (Op.opCreateCourse "C" "/c" 0) reuseMid)
      ∧ ((Op.opCreateCourse "C" "/c" 0).isReload = false →
          reuseMid.db.idCounter
            ≤ (step (Op.opCreateCourse "C" "/c" 0) reuseMid).db.idCounter)
      ∧ ((Op.opCreateCourse "C" "/c" 0).isReload = false →
          ∀ i ∈ allIds (step (Op.opCreateCourse "C" "/c" 0) reuseMid).db,
            i ∉ allIds reuseMid.db → reuseMid.db.idCounter < i)) :=
  ⟨by decide, step_ids_fresh_and_unique (Op.opCreateCourse "C" "/c" 0) reuseMid (by decide)⟩

/-- C1: the claim that `deleteCourse(c)` removes exactly the progress records
of the deleted course's videos is violated by the code: the progress filter
runs against the ALREADY-FILTERED video table, so it keeps the progress of
the deleted video (id 10, now orphaned) and deletes the progress of the
surviving course's video (id 20).  This theorem evaluates the embedded code
at the failing input. -/
theorem deleteCourse_keeps_orphaned_progress :
    ((deleteCourse 1 cascadeDb).courses.map Course.id = [2])
    ∧ ((deleteCourse 1 cascadeDb).videos.map Video.id = [20])
    ∧ ((deleteCourse 1 cascadeDb).videoProgress.map VideoProgress.videoId = [10]) := by
  decide

/-- C2: the claim that a heartbeat upsert never clears `completed` and
preserves `manuallyCompleted` is violated by the live JsonDatabase code: on a
record with completed = true and manuallyCompleted = true, a heartbeat with
progressPercentage = 10 stores a fresh record with completed = (10 >= 95) =
false and no manual flag.  This theorem evaluates the embedded code at the
failing input. -/
theorem updateVideoProgress_clears_completed :
    ((updateVideoProgress 1 10 100 10 2000 stickyDb).1.completed = false)
    ∧ ((updateVideoProgress 1 10 100 10 2000 stickyDb).1.manuallyCompleted = none)
    ∧ ((updateVideoProgress 1 10 100 10 2000 stickyDb).2.videoProgress.map
        VideoProgress.completed = [false]) := by
  decide

/-- C3: the claim that `close()` synchronously flushes whenever memory and
disk differ is violated by the code: after a single mutation the throttle
timer is live but the pending flag is still false, so `close()` cancels the
timer and writes nothing — the committed mutation (mem = 1) never reaches
disk (still holding 0).  This theorem evaluates the embedded code at the
failing input. -/
theorem close_loses_scheduled_mutation :
    ((closeDb (mutate 1 (Sched.mk (0 : Nat) false false [0]))).writes = [0])
    ∧ ((closeDb (mutate 1 (Sched.mk (0 : Nat) false false [0]))).mem = 1) := by
  decide

/-- C4 counterexample: two mutations inside one debounce window, run until the
scheduler is quiescent, produce TWO stable-storage writes, not one: the
second mutation sets the pending flag, so the scheduled flush is followed by
one trailing flush of the same final state. -/
theorem burst_two_writes_not_one :
    ((fireTimer (fireTimer (mutate 2 (mutate 1 (Sched.mk (0 : Nat) false false []))))).writes
      = [2, 2])
    ∧ ((fireTimer (fireTimer (mutate 2 (mutate 1 (Sched.mk (0 : Nat) false false []))))).timerSet
      = false)
    ∧ (fireTimer (fireTimer (fireTimer (mutate 2 (mutate 1 (Sched.mk (0 : Nat) false false [])))))
      = fireTimer (fireTimer (mutate 2 (mutate 1 (Sched.mk (0 : Nat) false false []))))) := by
  decide

/-- C4 amended: a burst of n >= 2 persistence-triggering mutations inside one
debounce window, starting from an idle scheduler, produces exactly TWO
stable-storage writes — the scheduled flush and one trailing flush — and both
contain the final state after all n mutations; after the trailing flush the
scheduler is idle again. -/
theorem burst_coalesces_to_two_writes {α : Type} (d1 d2 : α) (rest w : List α) (m0 : α) :
    ((d1 :: d2 :: rest).foldl (fun t d => mutate d t) (Sched.mk m0 false false w)
      |> fireTimer |> fireTimer) =
      Sched.mk ((d2 :: rest).getLastD d1) false false
        (w ++ [(d2 :: rest).getLastD d1, (d2 :: rest).getLastD d1]) := by
  have h1 : mutate d1 (Sched.mk m0 false false w) =
      { mem := d1, timerSet := true, pending := false, writes := w } := by
    simp [mutate, saveData]
  rw [List.foldl_cons, h1, foldl_mutate_timerSet _ _ rfl]
  simp [fireTimer, saveData, List.getLastD_cons]

theorem cmpLaws_natCmp : CmpLaws (fun a b : Nat => compare a b) := by
  refine ⟨?_, ?_, ?_⟩
  · intro a b
    rcases Nat.lt_trichotomy a b with h | h | h
    · rw [Nat.compare_eq_lt.mpr h, Nat.compare_eq_gt.mpr h]; rfl
    · subst h; rw [Nat.compare_eq_eq.mpr rfl]; rfl
    · rw [Nat.compare_eq_gt.mpr h, Nat.compare_eq_lt.mpr h]; rfl
  · intro a b c h1 h2
    rw [Nat.compare_eq_lt] at h1 h2 ⊢
    omega
  · intro a b c h1
    rw [Nat.compare_eq_eq] at h1
    subst h1
    rfl

theorem CmpLaws.cmpRefl {α : Type} {f : α → α → Ordering} (h : CmpLaws f) (a : α) :
    f a a = Ordering.eq := by
  have hs := h.symm a a
  cases hfa : f a a <;> rw [hfa] at hs <;>
    first | rfl | exact absurd hs (by simp [Ordering.swap])

theorem CmpLaws.eq_right {α : Type} {f : α → α → Ordering} (h : CmpLaws f)
    {a b c : α} (hbc : f b c = Ordering.eq) : f a b = f a c := by
  have e1 : f a b = (f b a).swap := h.symm b a
  rw [e1, h.eq_left hbc]
  exact (h.symm c a).symm

theorem CmpLaws.congrCmp {α : Type} {f g : α → α → Ordering}
    (hfg : ∀ a b, f a b = g a b) (h : CmpLaws g) : CmpLaws f := by
  refine ⟨?_, ?_, ?_⟩
  · intro a b; rw [hfg, hfg]; exact h.symm a b
  · intro a b c h1 h2; rw [hfg] at h1 h2 ⊢; exact h.lt_trans h1 h2
  · intro a b c h1; rw [hfg] at h1; rw [hfg, hfg]; exact h.eq_left h1

theorem CmpLaws.comap {α β : Type} {f : β → β → Ordering} (h : CmpLaws f)
    (k : α → β) : CmpLaws (fun a b => f (k a) (k b)) := by
  refine ⟨?_, ?_, ?_⟩
  · intro a b; exact h.symm (k a) (k b)
  · intro a b c h1 h2; exact h.lt_trans h1 h2
  · intro a b c h1; exact h.eq_left h1

theorem CmpLaws.combine {α : Type} {f g : α → α → Ordering}
    (hf : CmpLaws f) (hg : CmpLaws g) : CmpLaws (combineCmp f g) := by
  refine ⟨?_, ?_, ?_⟩
  · intro a b
    unfold combineCmp
    rw [hf.symm a b]
    cases hab : f a b with
    | eq => simpa [Ordering.swap] using hg.symm a b
    | lt => rfl
    | gt => rfl
  · intro a b c h1 h2
    unfold combineCmp at h1 h2 ⊢
    cases hab : f a b with
    | lt =>
      cases hbc : f b c with
      | lt => rw [hf.lt_trans hab hbc]
      | eq => rw [← hf.eq_right hbc, hab]
      | gt => rw [hbc] at h2; cases h2
    | eq =>
      rw [hab] at h1
      cases hbc : f b c with
      | lt => rw [hf.eq_left hab, hbc]
      | eq =>
        rw [hbc] at h2
        rw [hf.eq_left hab, hbc]
        exact hg.lt_trans h1 h2
      | gt => rw [hbc] at h2; cases h2
    | gt => rw [hab] at h1; cases h1
  · intro a b c h1
    unfold combineCmp at h1 ⊢
    cases hab : f a b with
    | lt => rw [hab] at h1; cases h1
    | gt => rw [hab] at h1; cases h1
    | eq =>
      rw [hab] at h1
      rw [hf.eq_left hab]
      cases hbc : f b c with
      | lt => rfl
      | gt => rfl
      | eq => exact hg.eq_left h1

theorem cmpLaws_pairCmp : CmpLaws pairCmp := by
  refine CmpLaws.congrCmp ?_
    ((cmpLaws_natCmp.comap Prod.fst).combine (cmpLaws_natCmp.comap Prod.snd))
  intro a b
  rfl

theorem cmpLaws_listCmp {α : Type} {f : α → α → Ordering} (h : CmpLaws f) :
    CmpLaws (listCmp f) := by
  refine ⟨?_, ?_, ?_⟩
  · intro a b
    induction a generalizing b with
    | nil => cases b <;> rfl
    | cons x xs ih =>
      cases b with
      | nil => rfl
      | cons y ys =>
        show listCmp f (y :: ys) (x :: xs) = (listCmp f (x :: xs) (y :: ys)).swap
        unfold listCmp
        rw [h.symm x y]
        cases hxy : f x y with
        | eq => exact ih ys
        | lt => rfl
        | gt => rfl
  · intro a b c h1 h2
    induction a generalizing b c with
    | nil =>
      cases b with
      | nil => cases h1
      | cons y ys =>
        cases c with
        | nil => cases h2
        | cons z zs => rfl
    | cons x xs ih =>
      cases b with
      | nil => cases h1
      | cons y ys =>
        cases c with
        | nil => cases h2
        | cons z zs =>
          unfold listCmp at h1 h2 ⊢
          cases hxy : f x y with
          | gt => rw [hxy] at h1; cases h1
          | lt =>
            cases hyz : f y z with
            | gt => rw [hyz] at h2; cases h2
            | lt => rw [h.lt_trans hxy hyz]
            | eq => rw [← h.eq_right hyz, hxy]
          | eq =>
            rw [hxy] at h1
            cases hyz : f y z with
            | gt => rw [hyz] at h2; cases h2
            | lt => rw [h.eq_left hxy, hyz]
            | eq =>
              rw [hyz] at h2
              rw [h.eq_left hxy, hyz]
              exact ih h1 h2
  · intro a b c h1
    induction a generalizing b c with
    | nil =>
      cases b with
      | nil => rfl
      | cons y ys => cases h1
    | cons x xs ih =>
      cases b with
      | nil => cases h1
      | cons y ys =>
        unfold listCmp at h1
        cases hxy : f x y with
        | lt => rw [hxy] at h1; cases h1
        | gt => rw [hxy] at h1; cases h1
        | eq =>
          rw [hxy] at h1
          cases c with
          | nil => rfl
          | cons z zs =>
            show listCmp f (x :: xs) (z :: zs) = listCmp f (y :: ys) (z :: zs)
            unfold listCmp
            rw [h.eq_left hxy]
            cases hyz : f y z with
            | lt => rfl
            | gt => rfl
            | eq => exact ih h1

theorem charCmp_eq_pairCmp (a b : Char) : charCmp a b = pairCmp (charKey a) (charKey b) := by
  unfold charCmp charKey pairCmp
  by_cases ha : a.toNat < 48 <;> by_cases hb : b.toNat < 48
  · simp only [if_pos ha, if_pos hb]
    rfl
  · simp only [if_pos ha, if_neg hb]
    exact Nat.compare_eq_lt.mpr (by omega)
  · simp only [if_neg ha, if_pos hb]
    exact Nat.compare_eq_gt.mpr (by omega)
  · simp only [if_neg ha, if_neg hb]
    rfl

theorem listCmp_map {α β : Type} (f : α → α → Ordering) (g : β → β → Ordering)
    (k : α → β) (hfg : ∀ x y, f x y = g (k x) (k y)) :
    ∀ a b : List α, listCmp f a b = listCmp g (a.map k) (b.map k) := by
  intro a
  induction a with
  | nil => intro b; cases b <;> rfl
  | cons x xs ih =>
    intro b
    cases b with
    | nil => rfl
    | cons y ys =>
      show (match f x y with | .eq => listCmp f xs ys | o => o)
        = (match g (k x) (k y) with | .eq => listCmp g (xs.map k) (ys.map k) | o => o)
      rw [← hfg x y, ih ys]

theorem strCmp_eq_keyCmp (s t : List Char) :
    strCmp s t = keyCmp (s.map charKey) (t.map charKey) :=
  listCmp_map charCmp pairCmp charKey charCmp_eq_pairCmp s t

theorem isDigitRun_head {c : Char} {cs : List Char} (h : isDigitRun (c :: cs) = true) :
    digitB c = true := by
  unfold isDigitRun at h
  simp at h
  exact h.1

theorem segWF_literal_head {d : Char} {ds : List Char} (hwf : SegWF (d :: ds))
    (h : isDigitRun (d :: ds) = false) : digitB d = false := by
  cases hd : digitB d with
  | false => rfl
  | true =>
    exfalso
    have hall : ∀ x ∈ d :: ds, digitB x = true := by
      intro x hx
      rcases List.mem_cons.mp hx with rfl | hx
      · exact hd
      · rw [hwf x hx, hd]
    have htrue : isDigitRun (d :: ds) = true := by
      unfold isDigitRun
      simp only [List.isEmpty_cons, Bool.not_false, Bool.true_and]
      exact List.all_eq_true.mpr hall
    rw [htrue] at h
    cases h

theorem digitB_bounds {c : Char} (h : digitB c = true) :
    48 ≤ c.toNat ∧ c.toNat ≤ 57 := by
  unfold digitB at h
  simpa using h

theorem digitB_not_bounds {c : Char} (h : digitB c = false) :
    c.toNat < 48 ∨ 57 < c.toNat := by
  unfold digitB at h
  simp at h
  omega
theorem cmpSeg_keyed {s t : List Char} (hs : s = [] ∨ SegWF s) (ht : t = [] ∨ SegWF t) :
    cmpSeg s t = keyCmp (segKey s) (segKey t) := by
  unfold cmpSeg segKey
  cases hds : isDigitRun s <;> cases hdt : isDigitRun t <;>
    simp only [hds, hdt, Bool.false_and, Bool.and_false, Bool.true_and, Bool.and_true,
      Bool.false_eq_true, if_false, if_true, ite_false, ite_true]
  · exact strCmp_eq_keyCmp s t
  · rcases hs with rfl | hwfs
    · cases t with
      | nil => cases hdt
      | cons d ds => rfl
    · cases s with
      | nil => cases hwfs
      | cons c cs =>
        have hc : digitB c = false := segWF_literal_head hwfs hds
        cases t with
        | nil => cases hdt
        | cons d ds =>
          have hd : digitB d = true := isDigitRun_head hdt
          have hcb := digitB_not_bounds hc
          have hdb := digitB_bounds hd
          show (match charCmp c d with
            | Ordering.eq => strCmp cs ds
            | o => o) = (match pairCmp (charKey c) (1, digitVal (d :: ds)) with
            | Ordering.eq => keyCmp (cs.map charKey) []
            | o => o)
          unfold charCmp charKey pairCmp
          rcases hcb with hlt | hgt
          · rw [if_pos (by omega), Nat.compare_eq_lt.mpr (by omega)]
            rw [show compare 0 1 = Ordering.lt from rfl]
          · rw [if_neg (by omega), Nat.compare_eq_gt.mpr (by omega)]
            rw [show compare 2 1 = Ordering.gt from rfl]
  · rcases ht with rfl | hwft
    · cases s with
      | nil => cases hds
      | cons c cs => rfl
    · cases s with
      | nil => cases hds
      | cons c cs =>
        have hc : digitB c = true := isDigitRun_head hds
        cases t with
        | nil => cases hwft
        | cons d ds =>
          have hd : digitB d = false := segWF_literal_head hwft hdt
          have hcb := digitB_bounds hc
          have hdb := digitB_not_bounds hd
          show (match charCmp c d with
            | Ordering.eq => strCmp cs ds
            | o => o) = (match pairCmp (1, digitVal (c :: cs)) (charKey d) with
            | Ordering.eq => keyCmp [] (ds.map charKey)
            | o => o)
          unfold charCmp charKey pairCmp
          rcases hdb with hlt | hgt
          · rw [if_pos (by omega), Nat.compare_eq_gt.mpr (by omega)]
            rw [show compare 1 0 = Ordering.gt from rfl]
          · rw [if_neg (by omega), Nat.compare_eq_lt.mpr (by omega)]
            rw [show compare 1 2 = Ordering.lt from rfl]
  · show compare (digitVal s) (digitVal t)
      = keyCmp [(1, digitVal s)] [(1, digitVal t)]
    unfold keyCmp listCmp pairCmp
    rw [show compare 1 1 = Ordering.eq from rfl]
    cases hv : compare (digitVal s) (digitVal t) <;> rfl

theorem cmpSeg_nil_left {t : List Char} (ht : SegWF t) : cmpSeg [] t = Ordering.lt := by
  cases t with
  | nil => cases ht
  | cons d ds => rfl

theorem cmpSeg_nil_right {s : List Char} (hs : SegWF s) : cmpSeg s [] = Ordering.gt := by
  cases s with
  | nil => cases hs
  | cons c cs =>
    unfold cmpSeg
    have hand : (isDigitRun (c :: cs) && isDigitRun []) = false := by
      cases isDigitRun (c :: cs) <;> rfl
    rw [hand]
    rfl

theorem segWF_splitSegs : ∀ x : List Char, ∀ s ∈ splitSegs x, SegWF s := by
  intro x
  induction x with
  | nil => intro s hs; cases hs
  | cons c cs ih =>
    intro s hs
    cases hsp : splitSegs cs with
    | nil =>
      simp only [splitSegs, hsp, List.mem_singleton] at hs
      subst hs
      intro d hd
      cases hd
    | cons s0 rest =>
      cases s0 with
      | nil => exact (ih [] (by rw [hsp]; simp)).elim
      | cons d s0t =>
        simp only [splitSegs, hsp] at hs
        by_cases hcd : digitB c = digitB d
        · rw [if_pos hcd] at hs
          rcases List.mem_cons.mp hs with rfl | hrest
          · intro e he
            rcases List.mem_cons.mp he with rfl | he2
            · exact hcd.symm
            · have hwf0 : SegWF (d :: s0t) := ih _ (by rw [hsp]; simp)
              rw [hwf0 e he2, hcd]
          · exact ih s (by rw [hsp]; simp [hrest])
        · rw [if_neg hcd] at hs
          rcases List.mem_cons.mp hs with rfl | hs2
          · intro e he; cases he
          · exact ih s (by rw [hsp]; exact hs2)

theorem cmpSegs_keyed {A B : List (List Char)} (hA : ∀ s ∈ A, SegWF s)
    (hB : ∀ s ∈ B, SegWF s) :
    cmpSegs A B = keysCmp (A.map segKey) (B.map segKey) := by
  induction A generalizing B with
  | nil =>
    cases B with
    | nil => rfl
    | cons b bs =>
      have hwb : SegWF b := hB b (by simp)
      show (match cmpSeg [] b with | .eq => cmpNilSegs bs | o => o) = _
      rw [cmpSeg_nil_left hwb]
      rfl
  | cons a as ih =>
    cases B with
    | nil =>
      have hwa : SegWF a := hA a (by simp)
      show (match cmpSeg a [] with | .eq => cmpSegsNil as | o => o) = _
      rw [cmpSeg_nil_right hwa]
      rfl
    | cons b bs =>
      have hwa : SegWF a := hA a (by simp)
      have hwb : SegWF b := hB b (by simp)
      show (match cmpSeg a b with | .eq => cmpSegs as bs | o => o) = _
      rw [cmpSeg_keyed (Or.inr hwa) (Or.inr hwb)]
      show _ = (match keyCmp (segKey a) (segKey b) with
        | Ordering.eq => keysCmp (as.map segKey) (bs.map segKey)
        | o => o)
      cases hk : keyCmp (segKey a) (segKey b) with
      | eq => exact ih (fun s hs => hA s (by simp [hs])) (fun s hs => hB s (by simp [hs]))
      | lt => rfl
      | gt => rfl

theorem cmpVideo_keyed (a b : Video) :
    cmpVideo a b = combineCmp (fun x y => keysCmp (nameKey x) (nameKey y))
      (fun x y => compare x.createdAt y.createdAt) a b := by
  unfold cmpVideo combineCmp nameKey
  rw [cmpSegs_keyed (segWF_splitSegs _) (segWF_splitSegs _)]

theorem cmpLaws_cmpVideo : CmpLaws cmpVideo :=
  CmpLaws.congrCmp cmpVideo_keyed
    (CmpLaws.combine
      ((cmpLaws_listCmp (cmpLaws_listCmp cmpLaws_pairCmp)).comap nameKey)
      (cmpLaws_natCmp.comap Video.createdAt))

theorem videoLE_total : ∀ a b : Video, videoLE a b ∨ videoLE b a := by
  intro a b
  unfold videoLE
  cases hab : cmpVideo a b with
  | gt =>
    right
    rw [cmpLaws_cmpVideo.symm a b, hab]
    simp [Ordering.swap]
  | lt => left; simp
  | eq => left; simp

theorem videoLE_trans : ∀ a b c : Video, videoLE a b → videoLE b c → videoLE a c := by
  intro a b c h1 h2
  unfold videoLE at h1 h2 ⊢
  cases hab : cmpVideo a b with
  | gt => exact absurd hab h1
  | eq => rw [cmpLaws_cmpVideo.eq_left hab]; exact h2
  | lt =>
    cases hbc : cmpVideo b c with
    | gt => exact absurd hbc h2
    | eq => rw [← cmpLaws_cmpVideo.eq_right hbc, hab]; simp
    | lt => rw [cmpLaws_cmpVideo.lt_trans hab hbc]; simp

/-- C7: getVideosByCourseId returns exactly the course's videos (a
permutation of the filtered video table), totally ordered by the natural
comparator relation (digit runs compare numerically, literal segments
compare case-insensitively by code point, the first differing segment
decides, and full ties break by creation time; `videoLE_total` and
`videoLE_trans` make the relation a total preorder); in particular
"Lesson 1.mp4" sorts before "Lesson 2.mp4" before "Lesson 10.mp4", and
"Intro.mp4" before "Outro.mp4".  The function is pure, hence deterministic
and identical across repeated calls on unchanged input. -/
theorem getVideosByCourseId_natural_order :
    (∀ (db : DB) (cid : Nat),
        List.Perm (getVideosByCourseId cid db)
          (db.videos.filter fun v => v.courseId == cid)
        ∧ List.Sorted videoLE (getVideosByCourseId cid db))
    ∧ (getVideosByCourseId 1 sortDb).map Video.fileName
        = ["Intro.mp4", "Lesson 1.mp4", "Lesson 2.mp4", "Lesson 10.mp4", "Outro.mp4"] := by
  constructor
  · intro db cid
    constructor
    · exact List.perm_insertionSort videoLE _
    · haveI : IsTotal Video videoLE := ⟨videoLE_total⟩
      haveI : IsTrans Video videoLE := ⟨videoLE_trans⟩
      exact List.sorted_insertionSort videoLE _
  · decide

/-- Helper: the forEach loop never moves off its accumulator when every
remaining timestamp is bounded by it. -/
theorem foldl_lastWatched_keep (videos : List Video) (prog : List VideoProgress)
    (l : List Video) (st : Option Video × Nat)
    (h : ∀ w ∈ l, ∀ q, mapGet videos prog w.id = some q → q.lastWatchedAt ≤ st.2) :
    l.foldl (lastWatchedStep videos prog) st = st := by
  induction l generalizing st with
  | nil => rfl
  | cons x xs ih =>
    have hx : lastWatchedStep videos prog st x = st := by
      unfold lastWatchedStep
      cases hq : mapGet videos prog x.id with
      | none => rfl
      | some q =>
        have hle := h x (by simp) q hq
        show (if q.lastWatchedAt > st.2 then (some x, q.lastWatchedAt) else st) = st
        rw [if_neg (by omega)]
    rw [List.foldl_cons, hx]
    exact ih st (fun w hw q hq => h w (by simp [hw]) q hq)

/-- Helper: the forEach loop lands on the unique video whose timestamp
strictly dominates every other one. -/
theorem foldl_lastWatched_max (videos : List Video) (prog : List VideoProgress)
    (l : List Video) (st : Option Video × Nat) (v : Video) (p : VideoProgress)
    (hmem : v ∈ l) (hp : mapGet videos prog v.id = some p)
    (hst : st.2 < p.lastWatchedAt)
    (hmax : ∀ w ∈ l, w.id ≠ v.id → ∀ q, mapGet videos prog w.id = some q →
      q.lastWatchedAt < p.lastWatchedAt)
    (hnd : (l.map Video.id).Nodup) :
    l.foldl (lastWatchedStep videos prog) st = (some v, p.lastWatchedAt) := by
  induction l generalizing st with
  | nil => cases hmem
  | cons x xs ih =>
    rw [List.map_cons, List.nodup_cons] at hnd
    by_cases hx : x.id = v.id
    · have hxv : x = v := by
        rcases List.mem_cons.mp hmem with rfl | hv2
        · rfl
        · exact absurd (hx ▸ List.mem_map_of_mem Video.id hv2) hnd.1
      subst hxv
      have hstep : lastWatchedStep videos prog st x = (some x, p.lastWatchedAt) := by
        unfold lastWatchedStep
        rw [hp]
        show (if p.lastWatchedAt > st.2 then (some x, p.lastWatchedAt) else st)
          = (some x, p.lastWatchedAt)
        rw [if_pos (by omega)]
      rw [List.foldl_cons, hstep]
      refine foldl_lastWatched_keep videos prog xs _ ?_
      intro w hw q hq
      have hwid : w.id ≠ x.id := by
        intro he
        exact absurd (he ▸ List.mem_map_of_mem Video.id hw) hnd.1
      exact le_of_lt (hmax w (by simp [hw]) hwid q hq)
    · have hv2 : v ∈ xs := by
        rcases List.mem_cons.mp hmem with rfl | hv2
        · exact absurd rfl hx
        · exact hv2
      have hst2 : (lastWatchedStep videos prog st x).2 < p.lastWatchedAt := by
        unfold lastWatchedStep
        cases hq : mapGet videos prog x.id with
        | none => exact hst
        | some q =>
          have hql := hmax x (by simp) hx q hq
          show (if q.lastWatchedAt > st.2 then ((some x : Option Video), q.lastWatchedAt)
            else st).2 < p.lastWatchedAt
          by_cases hgt : q.lastWatchedAt > st.2
          · rw [if_pos hgt]; exact hql
          · rw [if_neg hgt]; exact hst
      rw [List.foldl_cons]
      exact ih _ hv2 hst2 (fun w hw hwid q hq => hmax w (by simp [hw]) hwid q hq) hnd.2

/-- Helper: findIndex by id recovers the position when ids are distinct. -/
theorem findIdx_of_getElem (l : List Video) (i : Nat) (v : Video)
    (hnd : (l.map Video.id).Nodup) (hi : l[i]? = some v) :
    l.findIdx (fun w => w.id == v.id) = i := by
  induction l generalizing i with
  | nil => simp at hi
  | cons x xs ih =>
    rw [List.map_cons, List.nodup_cons] at hnd
    cases i with
    | zero =>
      simp at hi
      subst hi
      rw [List.findIdx_cons]
      simp
    | succ n =>
      simp only [List.getElem?_cons_succ] at hi
      have hmem : v ∈ xs := by
        have := List.getElem?_eq_some.mp hi
        obtain ⟨hlt, rfl⟩ := this
        exact List.getElem_mem hlt
      have hx : (x.id == v.id) = false := by
        simp only [beq_eq_false_iff_ne, ne_eq]
        intro he
        exact absurd (he ▸ List.mem_map_of_mem Video.id hmem) hnd.1
      rw [List.findIdx_cons, hx]
      simp only [cond_false]
      rw [ih n hnd.2 hi]

/-- Helper: scanning indexed pairs for the first hit past position `i` is
searching the list dropped past `i`. -/
theorem enumFrom_find_drop (pred : Video → Bool) (i : Nat) :
    ∀ (l : List Video) (n : Nat),
      ((List.enumFrom n l).find? fun p => decide (i < p.1) && pred p.2).map Prod.snd
        = (l.drop (i + 1 - n)).find? pred := by
  intro l
  induction l with
  | nil => intro n; simp [List.enumFrom]
  | cons x xs ih =>
    intro n
    by_cases hni : i < n
    · have h1 : i + 1 - n = 0 := by omega
      rw [h1]
      show (List.find? _ ((n, x) :: List.enumFrom (n + 1) xs)).map Prod.snd
        = List.find? pred (x :: xs)
      rw [List.find?_cons, List.find?_cons]
      simp only [decide_eq_true hni, Bool.true_and]
      cases hpx : pred x with
      | true => rfl
      | false =>
        have h2 : i + 1 - (n + 1) = 0 := by omega
        have := ih (n + 1)
        rw [h2] at this
        exact this
    · have h1 : i + 1 - n = (i - n) + 1 := by omega
      rw [h1]
      show (List.find? _ ((n, x) :: List.enumFrom (n + 1) xs)).map Prod.snd
        = List.find? pred (List.drop (i - n) xs)
      rw [List.find?_cons]
      simp only [decide_eq_false hni, Bool.false_and]
      have := ih (n + 1)
      have h2 : i + 1 - (n + 1) = i - n := by omega
      rw [h2] at this
      exact this

/-- Helper: a successful map lookup means the map is nonempty. -/
theorem mapGet_ne_nil {videos : List Video} {prog : List VideoProgress} {vid : Nat}
    {p : VideoProgress} (hp : mapGet videos prog vid = some p) :
    progressMap videos prog ≠ [] := by
  intro h0
  unfold mapGet at hp
  rw [h0] at hp
  cases hp
/-- C6: resume selection.  With duplicate-free video ids: (1) with no
progress record for any course video, the first video is returned; (2) when
one video v holds the strictly most recent positive lastWatchedAt, the
selection returns v itself if v is incomplete, and otherwise the first
incomplete video strictly after v's position, falling back to v when every
later video is complete; (3) when progress exists but no positive
lastWatchedAt does, the first incomplete video is returned (or the first
video when all are complete).  The function is pure, so re-running it on
unchanged stored state yields the same video. -/
theorem findLastWatchedVideo_spec (videos : List Video) (prog : List VideoProgress)
    (hnd : (videos.map Video.id).Nodup) :
    (progressMap videos prog = [] → findLastWatchedVideo videos prog = videos.head?)
    ∧ (∀ v p, v ∈ videos → mapGet videos prog v.id = some p → 0 < p.lastWatchedAt →
        (∀ w ∈ videos, w.id ≠ v.id → ∀ q, mapGet videos prog w.id = some q →
          q.lastWatchedAt < p.lastWatchedAt) →
        (p.completed = false → findLastWatchedVideo videos prog = some v)
        ∧ (∀ i, p.completed = true → videos[i]? = some v →
            findLastWatchedVideo videos prog
              = (((videos.drop (i + 1)).find? fun w =>
                  !isVideoCompletedC videos prog w.id) <|> some v)))
    ∧ (progressMap videos prog ≠ [] →
        (∀ w ∈ videos, ∀ q, mapGet videos prog w.id = some q → q.lastWatchedAt = 0) →
        findLastWatchedVideo videos prog
          = ((videos.find? fun v => !isVideoCompletedC videos prog v.id) <|> videos.head?)) := by
  refine ⟨?_, ?_, ?_⟩
  · intro h0
    unfold findLastWatchedVideo
    rw [if_pos (by rw [h0]; rfl)]
  · intro v p hv hp ht hmax
    have hne : progressMap videos prog ≠ [] := mapGet_ne_nil hp
    have hlen : ¬ (progressMap videos prog).length = 0 := by
      intro h
      exact hne (List.length_eq_zero.mp h)
    have hfold : videos.foldl (lastWatchedStep videos prog) (none, 0)
        = (some v, p.lastWatchedAt) :=
      foldl_lastWatched_max videos prog videos (none, 0) v p hv hp (by simpa using ht)
        hmax hnd
    constructor
    · intro hpc
      have hcomp : isVideoCompletedC videos prog v.id = false := by
        unfold isVideoCompletedC
        rw [hp]
        exact hpc
      unfold findLastWatchedVideo
      rw [if_neg hlen, hfold]
      show (if isVideoCompletedC videos prog v.id = true then _ else some v) = some v
      rw [hcomp]
      simp
    · intro i hpc hi
      have hcomp : isVideoCompletedC videos prog v.id = true := by
        unfold isVideoCompletedC
        rw [hp]
        exact hpc
      have hidx : videos.findIdx (fun w => w.id == v.id) = i :=
        findIdx_of_getElem videos i v hnd hi
      unfold findLastWatchedVideo
      rw [if_neg hlen, hfold]
      show (if isVideoCompletedC videos prog v.id = true then _ else some v) = _
      rw [hcomp, if_pos rfl]
      show (match videos.enum.find? (fun p =>
          decide ((videos.findIdx fun w => w.id == v.id) < p.1)
            && !isVideoCompletedC videos prog p.2.id) with
        | some p => some p.2
        | none => some v) = _
      rw [hidx]
      have henum := enumFrom_find_drop
        (fun w => !isVideoCompletedC videos prog w.id) i videos 0
      rw [Nat.sub_zero] at henum
      cases hfind : (videos.drop (i + 1)).find?
          (fun w => !isVideoCompletedC videos prog w.id) with
      | some w =>
        rw [hfind] at henum
        obtain ⟨pr, hpr, hsnd⟩ := Option.map_eq_some'.mp henum
        rw [show videos.enum = List.enumFrom 0 videos from rfl, hpr]
        simp [hsnd]
      | none =>
        rw [hfind] at henum
        rw [show videos.enum = List.enumFrom 0 videos from rfl,
          Option.map_eq_none'.mp henum]
        simp
  · intro hne hall
    have hlen : ¬ (progressMap videos prog).length = 0 := by
      intro h
      exact hne (List.length_eq_zero.mp h)
    have hfold : videos.foldl (lastWatchedStep videos prog) (none, 0) = (none, 0) :=
      foldl_lastWatched_keep videos prog videos (none, 0)
        (fun w hw q hq => le_of_eq (hall w hw q hq))
    unfold findLastWatchedVideo
    rw [if_neg hlen, hfold]
    show (match videos.find? (fun v => !isVideoCompletedC videos prog v.id) with
      | some v => some v
      | none => videos.head?) = _
    cases hfind : videos.find? (fun v => !isVideoCompletedC videos prog v.id) with
    | some w => simp
    | none => simp

/-- C6 witness: order [A, B, C], progress on A only (completed, most recent):
the theorem's completed case applies and resume returns B. -/
theorem findLastWatchedVideo_spec_witness :
    findLastWatchedVideo resumeVids resumeProg = some (mkVid 2 1 "B.mp4" 0) := by
  have h := ((findLastWatchedVideo_spec resumeVids resumeProg (by decide)).2.1
    (mkVid 1 1 "A.mp4" 0) (mkProg 1 100 true) (by decide) (by decide) (by decide)
    (by decide)).2 0 (by decide) (by decide)
  rw [h]
  decide

/-- C8 counterexample: JsonDatabase.createCourse performs NO duplicate-folder
check: on a store already owning "/a" it succeeds (no DuplicateFolder error)
and pushes a second Course row for "/a". -/
theorem createCourse_allows_duplicate_folder :
    courseExistsByPath "/a" dupDb = true
    ∧ ((createCourse "X" "/a" 5 dupDb).2.courses.map Course.folderPath = ["/a", "/a"])
    ∧ ((createCourse "X" "/a" 5 dupDb).1.folderPath = "/a") := by decide

/-- Helper: a fold whose step preserves a field preserves it overall. -/
theorem foldl_field_invariant {β γ : Type} (f : DB → γ) (step : DB → β → DB)
    (h : ∀ acc b, f (step acc b) = f acc) :
    ∀ (l : List β) (db : DB), f (l.foldl step db) = f db := by
  intro l
  induction l with
  | nil => intro db; rfl
  | cons x xs ih => intro db; rw [List.foldl_cons, ih, h]

/-- Helper: the augment loop body never touches the course table. -/
theorem augmentStep_courses (cid now : Nat) (eps : List String) (acc : DB)
    (d : FileDesc) : (augmentStep cid now eps acc d).courses = acc.courses := by
  unfold augmentStep
  split <;> rfl

/-- Helper: the create loop body never touches the course table. -/
theorem createStep_courses (cid now : Nat) (acc : DB) (d : FileDesc) :
    (createStep cid now acc d).courses = acc.courses := rfl

/-- Helper: refreshing updatedAt preserves id, name, folderPath and
createdAt of every course. -/
theorem updateCourseUpdatedAt_core (id now : Nat) (db : DB) :
    (updateCourseUpdatedAt id now db).courses.map
      (fun c => (c.id, c.name, c.folderPath, c.createdAt))
    = db.courses.map (fun c => (c.id, c.name, c.folderPath, c.createdAt)) := by
  unfold updateCourseUpdatedAt
  rw [List.map_map]
  apply List.map_congr_left
  intro c hc
  by_cases h : c.id = id <;> simp [h]

/-- C8 amended: duplicate-folder handling lives in the create-course
handler, not in createCourse.  When some course already owns folderPath p,
the handler succeeds by augmenting that course: it raises no error, creates
no second Course row for p, and leaves every course's id, name, folderPath
and createdAt unchanged; the raw createCourse (which never fails) is reached
only when p is not yet recorded. -/
theorem createCourseHandler_no_duplicate (name p : String) (descs : List FileDesc)
    (now : Nat) (db : DB) (c : Course)
    (hc : getCourseByPath p db = some c)
    (hname : ¬ trimChars name = []) (hpath : ¬ trimChars p = []) :
    ∃ db1, createCourseHandler name p descs now db = Except.ok db1
      ∧ db1.courses.map (fun c => (c.id, c.name, c.folderPath, c.createdAt))
          = db.courses.map (fun c => (c.id, c.name, c.folderPath, c.createdAt)) := by
  unfold createCourseHandler
  rw [if_neg hname, if_neg hpath, hc]
  refine ⟨_, rfl, ?_⟩
  rw [updateCourseUpdatedAt_core]
  rw [foldl_field_invariant DB.courses _ (augmentStep_courses c.id now _)]

/-- C8 witness: the amended theorem at the concrete duplicate store. -/
theorem createCourseHandler_no_duplicate_witness :
    ∃ db1, createCourseHandler "X" "/a" [] 5 dupDb = Except.ok db1
      ∧ db1.courses.map (fun c => (c.id, c.name, c.folderPath, c.createdAt))
          = dupDb.courses.map (fun c => (c.id, c.name, c.folderPath, c.createdAt)) :=
  createCourseHandler_no_duplicate "X" "/a" [] 5 dupDb
    { id := 1, name := "A", folderPath := "/a", createdAt := 0, updatedAt := 0 }
    (by decide) (by decide) (by decide)
/-- Helper: what the augment loop does to the video table — it appends some
videos of the target course, covering every descriptor that was not already
in the pre-computed path set. -/
theorem augment_foldl_videos (cid now : Nat) (eps : List String) :
    ∀ (descs : List FileDesc) (db : DB),
      ∃ extra,
        (descs.foldl (augmentStep cid now eps) db).videos = db.videos ++ extra
        ∧ (∀ v ∈ extra, v.courseId = cid)
        ∧ (∀ d ∈ descs, eps.contains d.filePath = true
            ∨ d.filePath ∈ extra.map Video.filePath) := by
  intro descs
  induction descs with
  | nil =>
    intro db
    exact ⟨[], by simp, by simp, by simp⟩
  | cons d ds ih =>
    intro db
    rw [List.foldl_cons]
    by_cases hm : eps.contains d.filePath = true
    · have hstep : augmentStep cid now eps db d = db := by
        unfold augmentStep
        rw [if_pos hm]
      rw [hstep]
      obtain ⟨extra, h1, h2, h3⟩ := ih db
      refine ⟨extra, h1, h2, ?_⟩
      intro e he
      rcases List.mem_cons.mp he with rfl | he2
      · exact Or.inl hm
      · exact h3 e he2
    · have hstep : augmentStep cid now eps db d
          = (createVideo ⟨cid, d.fileName, d.filePath, d.duration, d.fileSize⟩ now db).2 := by
        unfold augmentStep
        rw [if_neg hm]
      rw [hstep]
      obtain ⟨extra, h1, h2, h3⟩ :=
        ih (createVideo ⟨cid, d.fileName, d.filePath, d.duration, d.fileSize⟩ now db).2
      let newVid : Video :=
        { id := db.idCounter + 1, courseId := cid, fileName := d.fileName,
          filePath := d.filePath, duration := d.duration, fileSize := d.fileSize,
          createdAt := now, updatedAt := now }
      refine ⟨newVid :: extra, ?_, ?_, ?_⟩
      · rw [h1]
        simp [createVideo]
      · intro v hv
        rcases List.mem_cons.mp hv with rfl | hv2
        · rfl
        · exact h2 v hv2
      · intro e he
        rcases List.mem_cons.mp he with rfl | he2
        · right
          simp
        · rcases h3 e he2 with h | h
          · exact Or.inl h
          · right
            simp only [List.map_cons, List.mem_cons]
            exact Or.inr h

/-- Helper: the create loop appends exactly one video per descriptor, in
order, for the target course. -/
theorem create_foldl_videos (cid now : Nat) :
    ∀ (descs : List FileDesc) (db : DB),
      ∃ extra,
        (descs.foldl (createStep cid now) db).videos = db.videos ++ extra
        ∧ extra.map (fun v => (v.courseId, v.filePath))
            = descs.map (fun d => (cid, d.filePath)) := by
  intro descs
  induction descs with
  | nil =>
    intro db
    exact ⟨[], by simp, by simp⟩
  | cons d ds ih =>
    intro db
    rw [List.foldl_cons]
    obtain ⟨extra, h1, h2⟩ := ih (createStep cid now db d)
    let newVid : Video :=
      { id := db.idCounter + 1, courseId := cid, fileName := d.fileName,
        filePath := d.filePath, duration := d.duration, fileSize := d.fileSize,
        createdAt := now, updatedAt := now }
    refine ⟨newVid :: extra, ?_, ?_⟩
    · rw [h1]
      simp [createStep, createVideo]
    · simp only [List.map_cons, h2]

/-- Helper: when every descriptor's path is already in the set, the augment
loop is a no-op. -/
theorem augment_foldl_skip (cid now : Nat) (eps : List String)
    (descs : List FileDesc) (db : DB)
    (h : ∀ d ∈ descs, eps.contains d.filePath = true) :
    descs.foldl (augmentStep cid now eps) db = db := by
  induction descs with
  | nil => rfl
  | cons d ds ih =>
    rw [List.foldl_cons]
    have hstep : augmentStep cid now eps db d = db := by
      unfold augmentStep
      rw [if_pos (h d (by simp))]
    rw [hstep]
    exact ih (fun e he => h e (by simp [he]))

/-- Helper: membership in a course's sorted video paths is membership in
the raw video table with the right courseId. -/
theorem mem_courseVideos_paths {db : DB} {cid : Nat} {path : String} :
    path ∈ (getVideosByCourseId cid db).map Video.filePath
      ↔ ∃ v ∈ db.videos, v.courseId = cid ∧ v.filePath = path := by
  unfold getVideosByCourseId
  constructor
  · intro h
    obtain ⟨v, hv, rfl⟩ := List.mem_map.mp h
    have hvmem : v ∈ db.videos.filter fun v => v.courseId == cid :=
      (List.perm_insertionSort videoLE _).subset hv
    rw [List.mem_filter] at hvmem
    exact ⟨v, hvmem.1, by simpa using hvmem.2, rfl⟩
  · rintro ⟨v, hv, hcid, rfl⟩
    apply List.mem_map.mpr
    refine ⟨v, ?_, rfl⟩
    apply (List.perm_insertionSort videoLE _).mem_iff.mpr
    rw [List.mem_filter]
    exact ⟨hv, by simpa using hcid⟩

/-- Helper: a search that misses the first list continues into the second. -/
theorem find?_append_none {α : Type} (p : α → Bool) (l1 l2 : List α)
    (h : l1.find? p = none) : (l1 ++ l2).find? p = l2.find? p := by
  induction l1 with
  | nil => rfl
  | cons x xs ih =>
    cases hx : p x with
    | true =>
      rw [List.find?_cons_of_pos _ hx] at h
      cases h
    | false =>
      rw [List.find?_cons_of_neg _ (by simp [hx])] at h
      rw [List.cons_append, List.find?_cons_of_neg _ (by simp [hx])]
      exact ih h
/-- Helper: a create-course request on a store whose matching course
already records every descriptor path adds no video and changes no course
field other than updatedAt. -/
theorem handler_second_noop (name p : String) (descs : List FileDesc) (t2 : Nat)
    (db1 : DB) (e : Course)
    (hname : ¬ trimChars name = []) (hpath : ¬ trimChars p = [])
    (hc : getCourseByPath p db1 = some e)
    (hall : ∀ d ∈ descs,
      ((getVideosByCourseId e.id db1).map Video.filePath).contains d.filePath = true) :
    (handlerState (createCourseHandler name p descs t2 db1) db1).videos = db1.videos
    ∧ (handlerState (createCourseHandler name p descs t2 db1) db1).courses.map
        (fun c => (c.id, c.name, c.folderPath, c.createdAt))
      = db1.courses.map (fun c => (c.id, c.name, c.folderPath, c.createdAt)) := by
  have hh : createCourseHandler name p descs t2 db1
      = .ok (updateCourseUpdatedAt e.id t2 db1) := by
    unfold createCourseHandler
    rw [if_neg hname, if_neg hpath, hc]
    show Except.ok (updateCourseUpdatedAt e.id t2
        (descs.foldl (augmentStep e.id t2
          ((getVideosByCourseId e.id db1).map Video.filePath)) db1))
      = Except.ok (updateCourseUpdatedAt e.id t2 db1)
    rw [augment_foldl_skip e.id t2 _ descs db1 hall]
  rw [hh]
  exact ⟨rfl, updateCourseUpdatedAt_core e.id t2 db1⟩
/-- C9: importing the same folder descriptor list twice is idempotent: the
second run adds zero Video rows (the video table is exactly the one after
the first run) and creates no second Course for the folderPath (the course
table after the second run agrees with the one after the first on every id,
name, folderPath and createdAt; only the matched course's updatedAt is
refreshed). -/
theorem import_idempotent (name p : String) (descs : List FileDesc) (t1 t2 : Nat)
    (db : DB) :
    (afterSecond name p descs t1 t2 db).videos = (afterFirst name p descs t1 db).videos
    ∧ (afterSecond name p descs t1 t2 db).courses.map
        (fun c => (c.id, c.name, c.folderPath, c.createdAt))
      = (afterFirst name p descs t1 db).courses.map
        (fun c => (c.id, c.name, c.folderPath, c.createdAt)) := by
  unfold afterSecond afterFirst
  by_cases hname : trimChars name = []
  · have h1 : ∀ t, createCourseHandler name p descs t db
        = .error "Course name is required" := by
      intro t
      unfold createCourseHandler
      rw [if_pos hname]
    rw [h1 t1]
    show (handlerState (createCourseHandler name p descs t2 db) db).videos = db.videos
      ∧ (handlerState (createCourseHandler name p descs t2 db) db).courses.map
          (fun c => (c.id, c.name, c.folderPath, c.createdAt))
        = db.courses.map (fun c => (c.id, c.name, c.folderPath, c.createdAt))
    rw [h1 t2]
    exact ⟨rfl, rfl⟩
  · by_cases hpath : trimChars p = []
    · have h1 : ∀ t, createCourseHandler name p descs t db
          = .error "Folder path is required" := by
        intro t
        unfold createCourseHandler
        rw [if_neg hname, if_pos hpath]
      rw [h1 t1]
      show (handlerState (createCourseHandler name p descs t2 db) db).videos = db.videos
        ∧ (handlerState (createCourseHandler name p descs t2 db) db).courses.map
            (fun c => (c.id, c.name, c.folderPath, c.createdAt))
          = db.courses.map (fun c => (c.id, c.name, c.folderPath, c.createdAt))
      rw [h1 t2]
      exact ⟨rfl, rfl⟩
    · cases hc : getCourseByPath p db with
      | some existing =>
        have hfirst : createCourseHandler name p descs t1 db
            = .ok (updateCourseUpdatedAt existing.id t1
                (descs.foldl (augmentStep existing.id t1
                  ((getVideosByCourseId existing.id db).map Video.filePath)) db)) := by
          unfold createCourseHandler
          rw [if_neg hname, if_neg hpath, hc]
        rw [hfirst]
        obtain ⟨extra, hv, hcid, hcover⟩ := augment_foldl_videos existing.id t1
          ((getVideosByCourseId existing.id db).map Video.filePath) descs db
        have hcour : (descs.foldl (augmentStep existing.id t1
            ((getVideosByCourseId existing.id db).map Video.filePath)) db).courses
            = db.courses :=
          foldl_field_invariant DB.courses _ (augmentStep_courses existing.id t1 _) descs db
        have he2 : getCourseByPath p (updateCourseUpdatedAt existing.id t1
            (descs.foldl (augmentStep existing.id t1
              ((getVideosByCourseId existing.id db).map Video.filePath)) db))
            = some { existing with updatedAt := t1 } := by
          unfold getCourseByPath updateCourseUpdatedAt
          rw [List.find?_map, hcour]
          have hpr : ∀ c : Course, ((fun c : Course => c.folderPath == p) ∘ fun c : Course =>
              if c.id == existing.id then { c with updatedAt := t1 } else c) c
              = (c.folderPath == p) := by
            intro c
            show ((if c.id == existing.id
              then { c with updatedAt := t1 } else c).folderPath == p)
              = (c.folderPath == p)
            by_cases hcd : c.id = existing.id <;> simp [hcd]
          rw [funext hpr]
          unfold getCourseByPath at hc
          rw [hc]
          show some (if existing.id == existing.id
            then { existing with updatedAt := t1 } else existing)
            = some { existing with updatedAt := t1 }
          simp
        have hdb1v : (updateCourseUpdatedAt existing.id t1
            (descs.foldl (augmentStep existing.id t1
              ((getVideosByCourseId existing.id db).map Video.filePath)) db)).videos
            = db.videos ++ extra := hv
        have hall : ∀ d ∈ descs,
            ((getVideosByCourseId (Course.mk existing.id existing.name
                existing.folderPath existing.createdAt t1 existing.lastAccessedAt
                existing.lastWatchedVideoId).id
              (updateCourseUpdatedAt existing.id t1
                (descs.foldl (augmentStep existing.id t1
                  ((getVideosByCourseId existing.id db).map Video.filePath)) db))).map
              Video.filePath).contains d.filePath = true := by
          intro d hd
          apply List.elem_iff.mpr
          apply mem_courseVideos_paths.mpr
          rcases hcover d hd with hin | hin
          · have hmem : d.filePath ∈ (getVideosByCourseId existing.id db).map Video.filePath :=
              List.elem_iff.mp hin
            obtain ⟨v, hvmem, hvcid, hvpath⟩ := mem_courseVideos_paths.mp hmem
            refine ⟨v, ?_, hvcid, hvpath⟩
            rw [hdb1v]
            exact List.mem_append_left _ hvmem
          · obtain ⟨v, hvmem, hvpath⟩ := List.mem_map.mp hin
            refine ⟨v, ?_, hcid v hvmem, hvpath⟩
            rw [hdb1v]
            exact List.mem_append_right _ hvmem
        exact handler_second_noop name p descs t2 _ _ hname hpath he2 hall
      | none =>
        by_cases hnm : courseExistsByName (String.mk (trimChars name)) db = true
        · have h1 : ∀ t, createCourseHandler name p descs t db
              = .error "A course with this name already exists" := by
            intro t
            unfold createCourseHandler
            rw [if_neg hname, if_neg hpath, hc]
            show (if courseExistsByName (String.mk (trimChars name)) db = true
              then (.error "A course with this name already exists" : Except String DB)
              else if descs.length = 0
                then .error "No video files found in the selected folder"
                else .ok (descs.foldl (createStep (createCourse name p t db).1.id t)
                  (createCourse name p t db).2))
              = .error "A course with this name already exists"
            rw [if_pos hnm]
          rw [h1 t1]
          show (handlerState (createCourseHandler name p descs t2 db) db).videos = db.videos
            ∧ (handlerState (createCourseHandler name p descs t2 db) db).courses.map
                (fun c => (c.id, c.name, c.folderPath, c.createdAt))
              = db.courses.map (fun c => (c.id, c.name, c.folderPath, c.createdAt))
          rw [h1 t2]
          exact ⟨rfl, rfl⟩
        · by_cases hlen : descs.length = 0
          · have h1 : ∀ t, createCourseHandler name p descs t db
                = .error "No video files found in the selected folder" := by
              intro t
              unfold createCourseHandler
              rw [if_neg hname, if_neg hpath, hc]
              show (if courseExistsByName (String.mk (trimChars name)) db = true
                then (.error "A course with this name already exists" : Except String DB)
                else if descs.length = 0
                  then .error "No video files found in the selected folder"
                  else .ok (descs.foldl (createStep (createCourse name p t db).1.id t)
                    (createCourse name p t db).2))
                = .error "No video files found in the selected folder"
              rw [if_neg hnm, if_pos hlen]
            rw [h1 t1]
            show (handlerState (createCourseHandler name p descs t2 db) db).videos = db.videos
              ∧ (handlerState (createCourseHandler name p descs t2 db) db).courses.map
                  (fun c => (c.id, c.name, c.folderPath, c.createdAt))
                = db.courses.map (fun c => (c.id, c.name, c.folderPath, c.createdAt))
            rw [h1 t2]
            exact ⟨rfl, rfl⟩
          · have hfirst : createCourseHandler name p descs t1 db
                = .ok (descs.foldl (createStep (db.idCounter + 1) t1)
                    (createCourse name p t1 db).2) := by
              unfold createCourseHandler
              rw [if_neg hname, if_neg hpath, hc]
              show (if courseExistsByName (String.mk (trimChars name)) db = true
                then (.error "A course with this name already exists" : Except String DB)
                else if descs.length = 0
                  then .error "No video files found in the selected folder"
                  else .ok (descs.foldl (createStep (createCourse name p t1 db).1.id t1)
                    (createCourse name p t1 db).2))
                = .ok (descs.foldl (createStep (db.idCounter + 1) t1)
                    (createCourse name p t1 db).2)
              rw [if_neg hnm, if_neg hlen]
              rfl
            rw [hfirst]
            obtain ⟨extra, hv, hmap⟩ := create_foldl_videos (db.idCounter + 1) t1 descs
              (createCourse name p t1 db).2
            have hcour : (descs.foldl (createStep (db.idCounter + 1) t1)
                (createCourse name p t1 db).2).courses
                = db.courses ++ [(createCourse name p t1 db).1] :=
              foldl_field_invariant DB.courses _
                (createStep_courses (db.idCounter + 1) t1) descs _
            have he2 : getCourseByPath p (descs.foldl (createStep (db.idCounter + 1) t1)
                (createCourse name p t1 db).2) = some (createCourse name p t1 db).1 := by
              unfold getCourseByPath
              rw [hcour]
              unfold getCourseByPath at hc
              rw [find?_append_none _ _ _ hc]
              show List.find? (fun c => c.folderPath == p)
                [(createCourse name p t1 db).1] = some (createCourse name p t1 db).1
              rw [List.find?_cons_of_pos]
              simp [createCourse]
            have hdb1v : (descs.foldl (createStep (db.idCounter + 1) t1)
                (createCourse name p t1 db).2).videos = db.videos ++ extra := hv
            have hall : ∀ d ∈ descs,
                ((getVideosByCourseId (createCourse name p t1 db).1.id
                  (descs.foldl (createStep (db.idCounter + 1) t1)
                    (createCourse name p t1 db).2)).map
                  Video.filePath).contains d.filePath = true := by
              intro d hd
              apply List.elem_iff.mpr
              apply mem_courseVideos_paths.mpr
              have hpair : ((db.idCounter + 1 : Nat), d.filePath)
                  ∈ descs.map (fun d => ((db.idCounter + 1 : Nat), d.filePath)) :=
                List.mem_map_of_mem _ hd
              rw [← hmap] at hpair
              obtain ⟨v, hvmem, hveq⟩ := List.mem_map.mp hpair
              have hvc : v.courseId = db.idCounter + 1 := congrArg Prod.fst hveq
              have hvp : v.filePath = d.filePath := congrArg Prod.snd hveq
              refine ⟨v, ?_, hvc, hvp⟩
              rw [hdb1v]
              exact List.mem_append_right _ hvmem
            exact handler_second_noop name p descs t2 _ _ hname hpath he2 hall


/-- Helper: counting in a filterMap equals counting preimages. -/
theorem count_filterMap {α β : Type} [DecidableEq β] (f : α → Option β) (q : β) :
    ∀ l : List α, (l.filterMap f).count q = l.countP (fun a => f a == some q) := by
  intro l
  induction l with
  | nil => rfl
  | cons x xs ih =>
    rw [List.filterMap_cons, List.countP_cons]
    cases hx : f x with
    | none => simpa using ih
    | some b =>
      by_cases hb : b = q
      · subst hb
        simp [List.count_cons, ih]
      · simp [List.count_cons, ih, hb]

/-- Helper: countP of an equality test equals count in the mapped list. -/
theorem countP_eq_count_map {α β : Type} [DecidableEq β] (f : α → β) (b : β) :
    ∀ l : List α, l.countP (fun a => f a == b) = (l.map f).count b := by
  intro l
  induction l with
  | nil => rfl
  | cons x xs ih =>
    rw [List.countP_cons, List.map_cons, List.count_cons, ih]

/-- Helper: with duplicate-free video ids, find? on the progress table
characterises membership with the matching id. -/
theorem find?_videoId_unique {prog : List VideoProgress}
    (h1 : (prog.map VideoProgress.videoId).Nodup) (x : Nat) (q : VideoProgress) :
    prog.find? (fun vp => vp.videoId == x) = some q ↔ q ∈ prog ∧ q.videoId = x := by
  constructor
  · intro h
    refine ⟨List.mem_of_find?_eq_some h, ?_⟩
    have := List.find?_some h
    simpa using this
  · rintro ⟨hmem, hx⟩
    induction prog with
    | nil => cases hmem
    | cons r rest ih =>
      rw [List.map_cons, List.nodup_cons] at h1
      by_cases hr : r.videoId = x
      · have hq : q = r := by
          rcases List.mem_cons.mp hmem with rfl | hm2
          · rfl
          · exfalso
            apply h1.1
            have : q.videoId ∈ rest.map VideoProgress.videoId :=
              List.mem_map_of_mem VideoProgress.videoId hm2
            rw [hx, ← hr] at this
            exact this
        subst hq
        rw [List.find?_cons_of_pos _ (by simp [hr])]
      · have hq : q ∈ rest := by
          rcases List.mem_cons.mp hmem with rfl | hm2
          · exact absurd hx hr
          · exact hm2
        rw [List.find?_cons_of_neg _ (by simp [hr])]
        exact ih h1.2 hq

/-- Helper: in a duplicate-free list every element occurs once. -/
theorem count_nodup {α : Type} [DecidableEq α] {l : List α} (h : l.Nodup) (a : α) :
    l.count a = if a ∈ l then 1 else 0 := by
  by_cases hm : a ∈ l
  · rw [if_pos hm]
    exact List.count_eq_one_of_mem h hm
  · rw [if_neg hm]
    exact List.count_eq_zero.mpr hm

/-- Helper: the store's progressData (progress records filtered to the
course's videos) is a permutation of the per-video filterMap of
getVideoProgress, given duplicate-free progress videoIds and video ids. -/
theorem progressData_perm (prog : List VideoProgress) (videos : List Video)
    (h1 : (prog.map VideoProgress.videoId).Nodup)
    (h2 : (videos.map Video.id).Nodup) :
    List.Perm (prog.filter fun vp => videos.any fun v => v.id == vp.videoId)
      (videos.filterMap fun v => prog.find? fun vp => vp.videoId == v.id) := by
  apply List.perm_iff_count.mpr
  intro q
  rw [count_filterMap]
  have hnd : prog.Nodup := List.Nodup.of_map _ h1
  by_cases hq : q ∈ prog
  · have hcp : (videos.countP fun v => (prog.find? fun vp => vp.videoId == v.id) == some q)
        = videos.countP fun v => v.id == q.videoId := by
      apply List.countP_congr
      intro v hv
      constructor
      · intro h
        have h' : prog.find? (fun vp => vp.videoId == v.id) = some q := by
          simpa using h
        have hvq := ((find?_videoId_unique h1 v.id q).mp h').2
        simp [hvq]
      · intro h
        have hvq : q.videoId = v.id := by
          have hqid : v.id = q.videoId := by simpa using h
          omega
        have hfind : prog.find? (fun vp => vp.videoId == v.id) = some q :=
          (find?_videoId_unique h1 v.id q).mpr ⟨hq, hvq⟩
        simp [hfind]
    rw [hcp, countP_eq_count_map Video.id q.videoId]
    by_cases hmem : q.videoId ∈ videos.map Video.id
    · have hpredq : (videos.any fun v => v.id == q.videoId) = true := by
        obtain ⟨v, hv, hvid⟩ := List.mem_map.mp hmem
        exact List.any_eq_true.mpr ⟨v, hv, by simp [hvid]⟩
      rw [@List.count_filter _ _ _ (fun vp => videos.any fun v => v.id == vp.videoId)
        q prog hpredq, count_nodup hnd q, if_pos hq,
        count_nodup h2 q.videoId, if_pos hmem]
    · have hq0 : q ∉ prog.filter fun vp => videos.any fun v => v.id == vp.videoId := by
        intro hmem2
        rw [List.mem_filter] at hmem2
        apply hmem
        obtain ⟨v, hv, heq⟩ := List.any_eq_true.mp hmem2.2
        exact List.mem_map.mpr ⟨v, hv, by simpa using heq⟩
      rw [List.count_eq_zero.mpr hq0, count_nodup h2 q.videoId, if_neg hmem]
  · have hl : q ∉ prog.filter fun vp => videos.any fun v => v.id == vp.videoId := by
      intro h
      exact hq (List.mem_filter.mp h).1
    rw [List.count_eq_zero.mpr hl]
    have hz : (videos.countP fun v =>
        (prog.find? fun vp => vp.videoId == v.id) == some q) = 0 := by
      apply List.countP_eq_zero.mpr
      intro v hv hfind
      have h' : prog.find? (fun vp => vp.videoId == v.id) = some q := by simpa using hfind
      exact hq (List.mem_of_find?_eq_some h')
    rw [hz]

/-- Helper: sorting a course's videos keeps their ids duplicate-free. -/
theorem nodup_courseVideos_ids (db : DB) (cid : Nat)
    (h2 : (db.videos.map Video.id).Nodup) :
    ((getVideosByCourseId cid db).map Video.id).Nodup := by
  have hperm : List.Perm ((getVideosByCourseId cid db).map Video.id)
      ((db.videos.filter fun v => v.courseId == cid).map Video.id) :=
    (List.perm_insertionSort videoLE _).map Video.id
  exact hperm.nodup_iff.mpr (h2.sublist ((List.filter_sublist _).map Video.id))

/-- Helper: rounding zero to two decimals gives zero. -/
theorem round2_zero : round2 0 = 0 := by norm_num [round2]

/-- C10: getCourseWithVideos aggregates over the videos that HAVE a progress
record only: given duplicate-free progress videoIds and video ids, the
returned record lists the course's videos in natural order, totalVideos is
their number, completedVideos counts the progress-having videos whose record
is completed, and totalProgress is the mean progressPercentage of the
progress-having videos rounded to two decimals (0 when none has a record);
videos without a record are excluded from the average, not counted as 0%. -/
theorem getCourseWithVideos_aggregates (db : DB) (cid : Nat) (cw : CourseWithVideos)
    (h1 : (db.videoProgress.map VideoProgress.videoId).Nodup)
    (h2 : (db.videos.map Video.id).Nodup)
    (hcw : getCourseWithVideos cid db = some cw) :
    cw.videos = getVideosByCourseId cid db
    ∧ cw.totalVideos = (getVideosByCourseId cid db).length
    ∧ cw.completedVideos = (((getVideosByCourseId cid db).filterMap
        fun v => getVideoProgress v.id db).filter fun p => p.completed).length
    ∧ cw.totalProgress = (if ((getVideosByCourseId cid db).filterMap
          fun v => getVideoProgress v.id db).length = 0 then 0
        else round2 ((((getVideosByCourseId cid db).filterMap
            fun v => getVideoProgress v.id db).map
            VideoProgress.progressPercentage).sum
          / (((getVideosByCourseId cid db).filterMap
            fun v => getVideoProgress v.id db).length : Rat))) := by
  unfold getCourseWithVideos at hcw
  cases hcb : getCourseById cid db with
  | none => rw [hcb] at hcw; cases hcw
  | some course =>
    rw [hcb] at hcw
    simp only [Option.some.injEq] at hcw
    subst hcw
    have hperm0 : List.Perm
        (db.videoProgress.filter fun vp =>
          (getVideosByCourseId cid db).any fun v => v.id == vp.videoId)
        ((getVideosByCourseId cid db).filterMap fun v => getVideoProgress v.id db) :=
      progressData_perm db.videoProgress (getVideosByCourseId cid db) h1
        (nodup_courseVideos_ids db cid h2)
    refine ⟨rfl, rfl, ?_, ?_⟩
    · show ((db.videoProgress.filter fun vp =>
          (getVideosByCourseId cid db).any fun v => v.id == vp.videoId).filter
            fun p => p.completed).length = _
      exact ((hperm0.filter fun p => p.completed)).length_eq
    · show round2 (if ((db.videoProgress.filter fun vp =>
          (getVideosByCourseId cid db).any fun v => v.id == vp.videoId).length) > 0
        then ((db.videoProgress.filter fun vp =>
            (getVideosByCourseId cid db).any fun v => v.id == vp.videoId).map
            VideoProgress.progressPercentage).sum
          / ((db.videoProgress.filter fun vp =>
            (getVideosByCourseId cid db).any fun v => v.id == vp.videoId).length : Rat)
        else 0) = _
      rw [hperm0.length_eq, (hperm0.map VideoProgress.progressPercentage).sum_eq]
      by_cases hlen : ((getVideosByCourseId cid db).filterMap
          fun v => getVideoProgress v.id db).length = 0
      · rw [hlen, if_pos rfl]
        show round2 (if 0 > 0 then _ else 0) = 0
        rw [if_neg (by omega)]
        exact round2_zero
      · rw [if_neg hlen, if_pos (by omega)]

/-- Concrete run of the aggregation theorem: on aggDb (ten videos, one
completed progress record at 100%) the returned record has totalVideos 10,
completedVideos 1 and totalProgress 100 (the mean over the single
progress-having video, not over all ten). -/
theorem getCourseWithVideos_aggregates_witness :
    ∃ cw, getCourseWithVideos 1 aggDb = some cw
      ∧ cw.totalVideos = 10 ∧ cw.completedVideos = 1 ∧ cw.totalProgress = 100 := by
  have hs : (getCourseWithVideos 1 aggDb).isSome = true := by decide
  have hcw : getCourseWithVideos 1 aggDb
      = some ((getCourseWithVideos 1 aggDb).get hs) := (Option.some_get hs).symm
  obtain ⟨hv, htv, hcv, htp⟩ :=
    getCourseWithVideos_aggregates aggDb 1 _ (by decide) (by decide) hcw
  refine ⟨_, hcw, ?_, ?_, ?_⟩
  · rw [htv]
    decide
  · rw [hcv]
    decide
  · rw [htp]
    rw [if_neg (by decide)]
    have hw : ((getVideosByCourseId 1 aggDb).filterMap fun v => getVideoProgress v.id aggDb)
        = [{ id := 50, videoId := 3, currentTime := 10, duration := 10,
             progressPercentage := 100, lastWatchedAt := 5, completed := true }] := by
      decide
    rw [hw]
    simp only [List.map_cons, List.map_nil, List.sum_cons, List.sum_nil,
      List.length_cons, List.length_nil]
    norm_num [round2]

end VP
